import Mathlib

/-!
Verification development for the strapi-admin front-end build tooling
(src/packages/strapi-admin/index.js).

The filesystem is modelled as an association list from absolute paths
(lists of components) to file contents.  Directories are implicit: a path
"exists" when some file lives at it or below it, matching fs.existsSync /
fs.pathExistsSync on a tree of files.  `require.resolve` is modelled by an
environment function `R : String → Option Path` returning the installed
package root (getPkgPath), and reading the project package.json is modelled
by an `Option (List String)` of declared dependency names (Object.keys
order).  Fallible filesystem operations (fs-extra's copy rejecting on a
missing source, require throwing) live in `Except String`.
-/

namespace Strapi

/-- An absolute filesystem path, as its list of components. -/
abbrev FPath := List String

/-- A filesystem: a finite map from file paths to file contents,
represented as an association list (first entry for a key wins on read). -/
abbrev FS := List (FPath × String)

/-- Read the content of the file at `p`, if any. -/
def FS.read : FS → FPath → Option String
  | [], _ => none
  | e :: rest, p => if e.1 = p then some e.2 else FS.read rest p

/-- fs.existsSync / fs.pathExistsSync: `p` exists when a file lives at `p`
or strictly below it (an implicit directory). -/
def FS.existsPath (fs : FS) (p : FPath) : Bool :=
  fs.any (fun e => p.isPrefixOf e.1)

/-- Write (create or overwrite) the file at `p`. -/
def FS.write (fs : FS) (p : FPath) (c : String) : FS :=
  (p, c) :: fs.filter (fun e => !decide (e.1 = p))

/-- fs.removeSync / the destructive part of fs.emptyDir: drop every file at
or below `p`. -/
def FS.removeTree (fs : FS) (p : FPath) : FS :=
  fs.filter (fun e => !(p.isPrefixOf e.1))

/-- All files at or below `src`, keyed by their path relative to `src`. -/
def FS.subtree (fs : FS) (src : FPath) : List (FPath × String) :=
  fs.filterMap (fun e =>
    if src.isPrefixOf e.1 then some (e.1.drop src.length, e.2) else none)

/-- Write a list of files in order (later writes win). -/
def FS.writeList (fs : FS) (l : List (FPath × String)) : FS :=
  l.foldl (fun a e => FS.write a e.1 e.2) fs

/-- fs.copy: recursively copy the file or directory at `src` onto `dst`,
overwriting colliding files and keeping unrelated files under `dst`
(fs-extra merges directories). -/
def FS.copyTree (fs : FS) (src dst : FPath) : FS :=
  FS.writeList fs ((FS.subtree fs src).map (fun e => (dst ++ e.1, e.2)))

/-- fs.copy rejects when the source does not exist. -/
def FS.copyE (fs : FS) (src dst : FPath) : Except String FS :=
  if FS.existsPath fs src then .ok (FS.copyTree fs src dst)
  else .error "ENOENT: no such file or directory"

/-- Well-formedness: no duplicate keys (real filesystems hold one file per
path). All operations preserve this. -/
def FS.Wf (fs : FS) : Prop := (fs.map Prod.fst).Nodup

instance FS.decWf (fs : FS) : Decidable (FS.Wf fs) :=
  inferInstanceAs (Decidable (fs.map Prod.fst).Nodup)

/-- First-some choice on options (JS "later write wins" folds read naturally
with this combinator). -/
def pick {α : Type} (a b : Option α) : Option α :=
  match a with
  | some c => some c
  | none => b

/-! ### Embedding of src/packages/strapi-admin/index.js

The environment `R : String → Option FPath` models
`name => path.dirname(require.resolve(name + "/package.json"))` (getPkgPath):
`R name` is the installed package root, `none` when require.resolve throws.
`pkgDeps : Option (List String)` models `Object.keys(require(dir +
"/package.json").dependencies)` in declaration order (`none`: the project
manifest is missing or unparseable, so the require throws). -/

/-- getPkgPath (line 10): resolution failure is a thrown error. -/
def getPkgPath (R : String → Option FPath) (name : String) : Except String FPath :=
  match R name with
  | some p => .ok p
  | none => .error ("Cannot find module " ++ name)

/-- JS `dep.startsWith(pat)` (case sensitive), on character lists. -/
def jsStartsWith (s pat : String) : Bool := pat.data.isPrefixOf s.data

/-- Case-insensitive prefix test, matching a /^pat/i regex for a pattern
without letters needing unicode care. -/
def ciPrefix : List Char → List Char → Bool
  | [], _ => true
  | _ :: _, [] => false
  | a :: as, b :: bs => (a.toLower == b.toLower) && ciPrefix as bs

/-- JS name.replace of the anchored case-insensitive regex
"strapi-plugin-" with "" (lines 39 and 122): strip the 14-character plugin
prefix when it matches case-insensitively. -/
def stripPluginPrefix (name : String) : String :=
  if ciPrefix "strapi-plugin-".data name.data then String.mk (name.data.drop 14)
  else name

/-- The generated entry bound to a plugin in plugins.js (line 40). -/
def requireEntry (name : String) : String :=
  "require('../../plugins/" ++ name ++ "/admin/src').default"

/-- The mapping the manifest emits, in order: short name, entry (lines
37-42). -/
def manifestEntries (plugins : List String) : List (String × String) :=
  plugins.map (fun name => (stripPluginPrefix name, requireEntry name))

/-- One emitted mapping line: `'shortName': require(...).default` (line 41).
The key is wrapped in single quotes with no escaping applied. -/
def manifestEntryText (e : String × String) : String :=
  "'" ++ e.1 ++ "': " ++ e.2

/-- The template text of lines 14-36 of index.js, up to the interpolation
point inside `module.exports`. -/
def manifestHeader : String :=
  "\n    const injectReducer = require('./utils/injectReducer').default;\n" ++
  "    const injectSaga = require('./utils/injectSaga').default;\n" ++
  "    const useInjectReducer = require('./utils/injectReducer').useInjectReducer;\n" ++
  "    const useInjectSaga = require('./utils/injectSaga').useInjectSaga;\n" ++
  "    const \x7b languages \x7d = require('./i18n');\n\n" ++
  "    window.strapi = Object.assign(window.strapi || \x7b\x7d, \x7b\n" ++
  "      node: MODE || 'host',\n" ++
  "      backendURL: BACKEND_URL === '/' ? window.location.origin : BACKEND_URL,\n" ++
  "      languages,\n" ++
  "      currentLanguage:\n" ++
  "      window.localStorage.getItem('strapi-admin-language') ||\n" ++
  "      window.navigator.language ||\n" ++
  "      window.navigator.userLanguage ||\n" ++
  "      'en',\n" ++
  "      injectReducer,\n" ++
  "      injectSaga,\n" ++
  "      useInjectReducer,\n" ++
  "      useInjectSaga,\n" ++
  "    \x7d);\n\n" ++
  "    module.exports = \x7b\n" ++
  "      "

/-- The template text after the interpolation point (lines 43-45). -/
def manifestFooter : String := "\n    \x7d\n  "

/-- createPluginsJs's generated source text (lines 13-45): a pure function
of the plugin list. -/
def pluginsJsContent (plugins : List String) : String :=
  manifestHeader ++
    String.intercalate ",\n" ((manifestEntries plugins).map manifestEntryText) ++
    manifestFooter

/-- createPluginsJs (lines 13-51): write the generated text to
`dest/admin/src/plugins.js`. -/
def createPluginsJsFS (plugins : List String) (dest : FPath) (fs : FS) : FS :=
  FS.write fs (dest ++ ["admin", "src", "plugins.js"]) (pluginsJsContent plugins)

/-- copyPlugin (lines 53-73): copy the plugin's admin folder, its
config/layout.js when present, and its package.json into
`dest/plugins/<name>`. -/
def copyPlugin (R : String → Option FPath) (name : String) (dest : FPath)
    (fs : FS) : Except String FS := do
  let pkgFilePath ← getPkgPath R name
  let fs1 ← FS.copyE fs (pkgFilePath ++ ["admin"]) (dest ++ ["plugins", name, "admin"])
  let fs2 ←
    if FS.existsPath fs1 (pkgFilePath ++ ["config", "layout.js"]) then
      FS.copyE fs1 (pkgFilePath ++ ["config", "layout.js"])
        (dest ++ ["plugins", name, "config", "layout.js"])
    else pure fs1
  FS.copyE fs2 (pkgFilePath ++ ["package.json"]) (dest ++ ["plugins", name, "package.json"])

/-- copyAdmin (lines 75-84): copy the strapi-admin package's admin tree and
its config/layout.js into the cache dir. -/
def copyAdmin (R : String → Option FPath) (dest : FPath) (fs : FS) :
    Except String FS := do
  let adminPath ← getPkgPath R "strapi-admin"
  let fs1 ← FS.copyE fs (adminPath ++ ["admin"]) (dest ++ ["admin"])
  FS.copyE fs1 (adminPath ++ ["config", "layout.js"]) (dest ++ ["config", "layout.js"])

/-- copyCustomAdmin (lines 86-88). -/
def copyCustomAdmin (src dest : FPath) (fs : FS) : Except String FS :=
  FS.copyE fs src (dest ++ ["admin"])

/-- One step of the dependency filter of lines 95-99: the `&&` shortcuts,
so getPkgPath only runs (and can only throw) for a prefix-matching name. -/
def hasAdminEntryE (R : String → Option FPath) (fs : FS) (dep : String) :
    Except String Bool :=
  if jsStartsWith dep "strapi-plugin" then do
    let root ← getPkgPath R dep
    pure (FS.existsPath fs (root ++ ["admin", "src", "index.js"]))
  else pure false

/-- The `pluginsToCopy` filter (lines 95-99), left to right over the
declared dependency names. -/
def pluginsToCopyE (R : String → Option FPath) (fs : FS) :
    List String → Except String (List String)
  | [] => .ok []
  | d :: rest => do
    let keep ← hasAdminEntryE R fs d
    let tail ← pluginsToCopyE R fs rest
    pure (if keep then d :: tail else tail)

/-- The `Promise.all(pluginsToCopy.map(copyPlugin))` of line 110, as its
sequential linearization (destinations `plugins/<name>` are disjoint for
the distinct keys of a dependency map, and sources are read-only, so the
concurrent copies commute). -/
def copyPluginsE (R : String → Option FPath) (names : List String)
    (dest : FPath) (fs : FS) : Except String FS :=
  match names with
  | [] => .ok fs
  | n :: rest => do
    let fs1 ← copyPlugin R n dest fs
    copyPluginsE R rest dest fs1

/-- The `pluginsToOverride` reduce of lines 121-129: keep the short names
whose `extensions/<short>/admin` directory exists. -/
def pluginsToOverride (pluginsToCopy : List String) (dir : FPath) (fs : FS) :
    List String :=
  pluginsToCopy.foldl (fun acc current =>
    let pluginName := stripPluginPrefix current
    if FS.existsPath fs (dir ++ ["extensions", pluginName, "admin"]) then
      acc ++ [pluginName]
    else acc) []

/-- The `Promise.all` of lines 131-138, sequentially (same-source copies to
the same destination commute, distinct short names have disjoint
destinations). -/
def copyExtensionsE (dir cacheDir : FPath) (names : List String) (fs : FS) :
    Except String FS :=
  match names with
  | [] => .ok fs
  | plugin :: rest => do
    let fs1 ← copyCustomAdmin (dir ++ ["extensions", plugin, "admin"])
      (cacheDir ++ ["plugins", "strapi-plugin-" ++ plugin]) fs
    copyExtensionsE dir cacheDir rest fs1

/-- createCacheDir (lines 90-139), the full materialization pass. -/
def createCacheDir (R : String → Option FPath) (pkgDeps : Option (List String))
    (dir : FPath) (fs : FS) : Except String FS := do
  let cacheDir := dir ++ [".cache"]
  let deps ← match pkgDeps with
    | some d => Except.ok d
    | none => Except.error "Cannot find module package.json"
  let pluginsToCopy ← pluginsToCopyE R fs deps
  let fs := FS.removeTree fs cacheDir
  let fs ← copyAdmin R cacheDir fs
  let fs ← copyPluginsE R pluginsToCopy cacheDir fs
  let fs := createPluginsJsFS pluginsToCopy cacheDir fs
  let fs ←
    if FS.existsPath fs (dir ++ ["admin"]) then
      copyCustomAdmin (dir ++ ["admin"]) cacheDir fs
    else pure fs
  copyExtensionsE dir (dir ++ [".cache"]) (pluginsToOverride pluginsToCopy dir fs) fs

/-! ### The build orchestrator's result mapping (lines 152-181) -/

/-- The `{errors, warnings}` shape of `stats.toJson({warnings: true,
errors: true})`. -/
structure WebpackStats where
  errors : List String
  warnings : List String
deriving DecidableEq

/-- What the promise of lines 152-181 settles to. `rejectedRaw` is the
`reject(err)` of line 157 (an error object without a message). -/
inductive BuildOutcome
  | rejectedRaw
  | rejectedMsg (msg : String)
  | resolved (stats : WebpackStats) (warnings : List String)
deriving DecidableEq

/-- Lines 167-172: `messages.errors.length = 1` keeps only the first error. -/
def firstErrorOnly (errors : List String) : List String :=
  if errors.length > 1 then errors.take 1 else errors

/-- Lines 167-179: reject with the joined (truncated) error list when any
error was reported, otherwise resolve with the stats and warnings. -/
def finishBuild (messages : WebpackStats) (stats : WebpackStats) : BuildOutcome :=
  if messages.errors.length ≠ 0 then
    .rejectedMsg (String.intercalate "\n\n" (firstErrorOnly messages.errors))
  else .resolved stats messages.warnings

/-- The compiler.run callback (lines 153-180).  `err = none`: webpack
completed and reported `stats`; `err = some (some m)`: fatal error with
message `m`; `err = some none`: fatal error whose message is absent. -/
def buildMap (err : Option (Option String)) (stats : WebpackStats) : BuildOutcome :=
  match err with
  | some none => .rejectedRaw
  | some (some m) => finishBuild ⟨[m], []⟩ stats
  | none => finishBuild ⟨stats.errors, stats.warnings⟩ stats

/-- build (lines 141-182): materialize the cache dir, then run the bundler
(whose report is the `(err, stats)` pair) and map its result. -/
def buildE (R : String → Option FPath) (pkgDeps : Option (List String))
    (dir : FPath) (fs : FS) (err : Option (Option String)) (stats : WebpackStats) :
    Except String BuildOutcome := do
  let _ ← createCacheDir R pkgDeps dir fs
  pure (buildMap err stats)

/-! ### The live sync watcher (watchFiles, lines 230-325)

The handler works on the event path's joined string form (chokidar hands it
a string).  The JS string operations — the extensions regex, split on a
literal separator, replace of the first occurrence — are implemented
character by character on `List Char`, and path.join's recombination of a
segment string is `toComponents`.  Component paths never contain the
separator, so joining and re-splitting is exact. -/

/-- Join an absolute component path to its string form ("/a/b/c"). -/
def joinChars (p : FPath) : List Char :=
  p.foldl (fun acc c => acc ++ ('/' :: c.data)) []

/-- JS String.prototype.includes with a literal pattern. -/
def containsSub (pat : List Char) : List Char → Bool
  | [] => pat.isEmpty
  | c :: rest => pat.isPrefixOf (c :: rest) || containsSub pat rest

/-- Fuel-driven worker for `jsSplit` (fuel = remaining length, each step
consumes at least one character). -/
def splitAuxF (sep : List Char) : Nat → List Char → List Char → List (List Char)
  | 0, s, acc => [acc.reverse ++ s]
  | n + 1, s, acc =>
    match s with
    | [] => [acc.reverse]
    | c :: rest =>
      if sep.isPrefixOf (c :: rest) then
        acc.reverse :: splitAuxF sep n ((c :: rest).drop sep.length) []
      else splitAuxF sep n rest (c :: acc)

/-- JS String.prototype.split with a literal separator: leftmost,
non-overlapping occurrences, keeping empty pieces.  (The empty-separator
case is never used by the handler.) -/
def jsSplit (sep s : List Char) : List (List Char) :=
  if sep.isEmpty then [s] else splitAuxF sep s.length s []

/-- Worker for `jsReplaceFirst`. -/
def replaceFirstAux (pat : List Char) : List Char → List Char
  | [] => []
  | c :: rest =>
    if pat.isPrefixOf (c :: rest) then (c :: rest).drop pat.length
    else c :: replaceFirstAux pat rest

/-- JS s.replace(pat, "") with a literal string pattern: remove the first
occurrence, if any. -/
def jsReplaceFirst (pat s : List Char) : List Char :=
  if pat.isEmpty then s else replaceFirstAux pat s

/-- Exec of the extensions regex of line 256 (anchored nowhere, matched
leftmost): the string "\x2fextensions\x2f", then the captured run of
non-separator characters, then a separator, then anything.  Returns the
capture (the extension's plugin short name). -/
def extCapture : List Char → Option (List Char)
  | [] => none
  | c :: rest =>
    if "/extensions/".data.isPrefixOf (c :: rest)
        && !(((c :: rest).drop 12).dropWhile (fun ch => ch != '/')).isEmpty then
      some (((c :: rest).drop 12).takeWhile (fun ch => ch != '/'))
    else extCapture rest

/-- `isExtension` (line 258). -/
def isExtensionOf (p : FPath) : Bool := (extCapture (joinChars p)).isSome

/-- `pluginName` (line 259). -/
def pluginNameOf (p : FPath) : String :=
  match extCapture (joinChars p) with
  | some l => String.mk l
  | none => ""

/-- `packageName` (lines 261-263). -/
def packageNameOf (p : FPath) : String :=
  if isExtensionOf p then "strapi-plugin-" ++ pluginNameOf p else "strapi-admin"

/-- path.join's recombination of a possibly slash-prefixed segment string:
split on separators and drop empty segments.  (Event paths contain no "."
or ".." segments, which join would also normalize.) -/
def toComponents (s : List Char) : FPath :=
  ((jsSplit ['/'] s).map (fun l => String.mk l)).filter (fun t => t != "")

/-- `targetPath` (lines 264-266).  In the non-extension case the JS indexes
piece 1 of the split; for paths outside every watched root that piece is
absent (and the JS would throw on the undefined) — the model returns the
empty target there, which no theorem relies on. -/
def targetPathOf (p : FPath) : FPath :=
  if isExtensionOf p then
    toComponents (jsReplaceFirst (pluginNameOf p).data
      ((jsSplit "/extensions/".data (joinChars p)).getD 1 []))
  else
    toComponents ((jsSplit "/admin".data (joinChars p)).getD 1 [])

/-- `destFolder` (lines 268-270). -/
def destFolderOf (dir : FPath) (p : FPath) : FPath :=
  if isExtensionOf p then dir ++ [".cache", "plugins", packageNameOf p]
  else dir ++ [".cache", "admin"]

/-- `shouldCopyPluginsJSFile` (lines 301-302): exactly one non-empty piece
remains when splitting the path on "\x2fadmin\x2fsrc". -/
def shouldCopyPluginsJS (p : FPath) : Bool :=
  ((jsSplit "/admin/src".data (joinChars p)).filter
    (fun piece => !piece.isEmpty)).length == 1

/-- `filePath.includes('plugins.js')` (line 308). -/
def filePathIncludesPluginsJs (p : FPath) : Bool :=
  containsSub "plugins.js".data (joinChars p)

/-- The regeneration trigger of lines 304-309. -/
def regenTrigger (ev : Bool) (isExt : Bool) (p : FPath) : Bool :=
  (ev && !isExt && shouldCopyPluginsJS p) || (!isExt && filePathIncludesPluginsJs p)

/-- The chokidar event kinds delivered to the 'all' listener. -/
inductive WEvent
  | add
  | addDir
  | change
  | unlink
  | unlinkDir
deriving DecidableEq

/-- Instrumentation of the handler's externally visible actions, in order:
removals, restore copies, plain copies, manifest regeneration, and console
logging. -/
inductive WAction
  | removed (p : FPath)
  | restored (src dst : FPath)
  | copied (src dst : FPath)
  | regen
  | logged (msg : String)
deriving DecidableEq

/-- Environmental failure injection for the handler's fallible filesystem
steps (EPERM and friends): when a flag is set, that step throws. -/
structure FailSpec where
  removeFails : Bool
  restoreFails : Bool
  regenFails : Bool
  copyFails : Bool
deriving DecidableEq

def noFail : FailSpec := ⟨false, false, false, false⟩

/-- The watcher.on('all') handler (lines 255-324).  Every try/catch of the
source is modelled by recovering to the pre-step state (an op that throws
has no effect); the only uncaught throw is getPkgPath at line 273, which
runs outside both try blocks.  A create/modify copy whose source vanished
rejects and is caught and logged (line 321), like any other copy failure. -/
def handleEvent (R : String → Option FPath) (appPlugins : List String)
    (dir : FPath) (f : FailSpec) (ev : WEvent) (p : FPath) (fs : FS) :
    Except String (FS × List WAction) :=
  let cacheDir := dir ++ [".cache"]
  let isExt := isExtensionOf p
  let target := targetPathOf p
  let dest := destFolderOf dir p ++ target
  if ev = WEvent.unlink ∨ ev = WEvent.unlinkDir then
    match R (packageNameOf p) with
    | none => .error ("Cannot find module " ++ packageNameOf p)
    | some pkgRoot =>
      let original := pkgRoot ++ (if isExt then ([] : FPath) else ["admin"]) ++ target
      let st1 : FS × List WAction :=
        if f.removeFails then
          (fs, [WAction.logged "An error occured while deleting the file"])
        else (FS.removeTree fs dest, [WAction.removed dest])
      if FS.existsPath st1.1 original then
        if f.restoreFails then .ok st1
        else
          let fs2 := FS.copyTree st1.1 original dest
          let tr2 := st1.2 ++ [WAction.restored original dest]
          if regenTrigger (decide (ev = WEvent.unlinkDir)) isExt p then
            if f.regenFails then .ok (fs2, tr2)
            else .ok (createPluginsJsFS appPlugins cacheDir fs2, tr2 ++ [WAction.regen])
          else .ok (fs2, tr2)
      else .ok st1
  else
    if f.copyFails || !FS.existsPath fs p then
      .ok (fs, [WAction.logged "copy error"])
    else .ok (FS.copyTree fs p dest, [WAction.copied p dest])

/-- The watcher session: events are applied in delivery order; a rejected
handler invocation (unhandled rejection in this Node version) leaves the
tree unchanged and the watcher keeps consuming events. -/
def processEvents (R : String → Option FPath) (appPlugins : List String)
    (dir : FPath) : List (FailSpec × WEvent × FPath) → FS → FS
  | [], fs => fs
  | (f, ev, p) :: rest, fs =>
    match handleEvent R appPlugins dir f ev p fs with
    | .ok (fs', _) => processEvents R appPlugins dir rest fs'
    | .error _ => processEvents R appPlugins dir rest fs


/-! ### The layer model (spec sections 3 and 4.1)

Each layer is a partial content function on merged-tree relative paths,
reading the project state `fs`.  The destination mapping of each layer is
the one the copy steps of createCacheDir realize. -/

/-- The base framework layer: the strapi-admin package's admin tree lands
under admin, its config/layout.js under config/layout.js. -/
def baseLayerContent (ar : FPath) (fs : FS) (rel : FPath) : Option String :=
  if ["admin"].isPrefixOf rel || ["config", "layout.js"].isPrefixOf rel then
    FS.read fs (ar ++ rel)
  else none

/-- A plugin layer: its admin tree, config/layout.js and package.json land
under plugins/name. -/
def pluginLayerContent (R : String → Option FPath) (fs : FS) (name : String)
    (rel : FPath) : Option String :=
  if ["plugins", name, "admin"].isPrefixOf rel
      || ["plugins", name, "config", "layout.js"].isPrefixOf rel
      || ["plugins", name, "package.json"].isPrefixOf rel then
    match R name with
    | some root => FS.read fs (root ++ rel.drop 2)
    | none => none
  else none

/-- The project-level override layer: the project's admin directory lands
under admin. -/
def projLayerContent (dir : FPath) (fs : FS) (rel : FPath) : Option String :=
  if ["admin"].isPrefixOf rel then FS.read fs (dir ++ rel) else none

/-- The per-plugin extension override layer of plugin `p`:
extensions/(short p)/admin lands under
plugins/strapi-plugin-(short p)/admin, exactly where line 135 puts it. -/
def extLayerContent (dir : FPath) (fs : FS) (p : String) (rel : FPath) :
    Option String :=
  if ["plugins", "strapi-plugin-" ++ stripPluginPrefix p, "admin"].isPrefixOf rel then
    FS.read fs (dir ++ ["extensions", stripPluginPrefix p] ++ rel.drop 2)
  else none

/-- The active layers in ascending precedence: base, then the plugin layers
in dependency-declaration order, then the project-level override (when its
directory exists), then the extension overrides of the overridden plugins
in order. -/
def layerList (R : String → Option FPath) (fs : FS) (dir ar : FPath)
    (P : List String) : List (FPath → Option String) :=
  [baseLayerContent ar fs] ++ P.map (pluginLayerContent R fs)
    ++ (if FS.existsPath fs (dir ++ ["admin"]) then [projLayerContent dir fs] else [])
    ++ ((P.filter (fun p =>
          FS.existsPath fs (dir ++ ["extensions", stripPluginPrefix p, "admin"]))).map
        (extLayerContent dir fs))

/-- The content of the highest-precedence layer containing `rel` (none when
no layer contains it). -/
def highestContent (ls : List (FPath → Option String)) (rel : FPath) : Option String :=
  ls.foldl (fun acc L => pick (L rel) acc) none

/-- How many active layers contain `rel`. -/
def countContaining (ls : List (FPath → Option String)) (rel : FPath) : Nat :=
  (ls.filter (fun L => (L rel).isSome)).length

/-- The content the materialization pipeline leaves at cache-relative path
`rel`: base, overwritten by the plugin copies, the generated manifest, the
project override and the extension overrides, in step order. -/
def mergedContent (R : String → Option FPath) (fs : FS) (dir ar : FPath)
    (P : List String) (rel : FPath) : Option String :=
  let v1 := baseLayerContent ar fs rel
  let v2 := P.foldl (fun acc p => pick (pluginLayerContent R fs p rel) acc) v1
  let v3 := if rel = ["admin", "src", "plugins.js"] then some (pluginsJsContent P) else v2
  let v4 := pick (projLayerContent dir fs rel) v3
  P.foldl (fun acc p => pick (extLayerContent dir fs p rel) acc) v4

/-- Prefix-incomparability of two paths: neither subtree contains the
other. -/
def PathDisj (a b : FPath) : Prop :=
  a.isPrefixOf b = false ∧ b.isPrefixOf a = false

instance decPathDisj (a b : FPath) : Decidable (PathDisj a b) :=
  inferInstanceAs (Decidable (a.isPrefixOf b = false ∧ b.isPrefixOf a = false))

/-- A sane installation layout: no resolved package root lies inside the
cache directory, nor the cache directory inside a package root. -/
def SepEnv (R : String → Option FPath) (cacheDir : FPath) : Prop :=
  ∀ name r, R name = some r → PathDisj r cacheDir

/-! ### Spec-side helpers for the manifest and watcher claims -/

/-- JS object-literal semantics: a repeated key is bound to its last
occurrence. -/
def jsObjectBinding (entries : List (String × String)) (key : String) :
    Option String :=
  (entries.reverse.find? (fun e => decide (e.1 = key))).map Prod.snd

def squoteChar : Char := Char.ofNat 39

def backslashChar : Char := Char.ofNat 92

/-- Strict parser of an escape-free single-quoted JS string literal:
returns the denoted string when the text is one quote, then characters
that are neither quotes nor backslashes, then one quote. -/
def parseSingleQuoted (s : String) : Option String :=
  match s.data with
  | [] => none
  | q1 :: rest =>
    if q1 = squoteChar then
      match rest.getLast? with
      | some q2 =>
        if q2 = squoteChar
            && rest.dropLast.all (fun c => c != squoteChar && c != backslashChar) then
          some (String.mk rest.dropLast)
        else none
      | none => none
    else none

/-- The key text the manifest emits for a short name. -/
def quotedKey (shortName : String) : String :=
  String.mk (squoteChar :: shortName.data ++ [squoteChar])

/-- The claim's destination for a watched override path: strip the watched
root and re-root under the admin destination (project override) or the
plugin's destination (extension override). -/
def strippedDest (dir p : FPath) : Option FPath :=
  if dir.isPrefixOf p then
    match p.drop dir.length with
    | "admin" :: rest => some (dir ++ [".cache", "admin"] ++ rest)
    | "extensions" :: s :: "admin" :: rest =>
      some (dir ++ [".cache", "plugins", "strapi-plugin-" ++ s, "admin"] ++ rest)
    | _ => none
  else none

/-- The action trace of a handler run ([] when it rejected). -/
def traceOf (r : Except String (FS × List WAction)) : List WAction :=
  match r with
  | .ok (_, tr) => tr
  | .error _ => []

/-- The tree a handler run leaves behind (`fs` when it rejected). -/
def fsOf (r : Except String (FS × List WAction)) (fs : FS) : FS :=
  match r with
  | .ok (g, _) => g
  | .error _ => fs

/-- Whether an Except settled without an uncaught throw. -/
def isOkE {α : Type} (r : Except String α) : Bool :=
  match r with
  | .ok _ => true
  | .error _ => false

instance exceptDecEq {ε α : Type} [DecidableEq ε] [DecidableEq α] :
    DecidableEq (Except ε α) := fun a b =>
  match a, b with
  | .ok x, .ok y =>
    if h : x = y then isTrue (by rw [h]) else
      isFalse (fun hc => h (Except.ok.inj hc))
  | .error x, .error y =>
    if h : x = y then isTrue (by rw [h]) else
      isFalse (fun hc => h (Except.error.inj hc))
  | .ok _, .error _ => isFalse (fun hc => Except.noConfusion hc)
  | .error _, .ok _ => isFalse (fun hc => Except.noConfusion hc)

/-! ### A concrete example project (used by witnesses and counterexamples)

Project root app; installed packages under nm; two plugins with admin
entry points; one project-override file and one extension-override file. -/

def exR : String → Option FPath := fun n =>
  if n = "strapi-admin" then some ["nm", "strapi-admin"]
  else if n = "strapi-plugin-users" then some ["nm", "strapi-plugin-users"]
  else if n = "strapi-plugin-upload" then some ["nm", "strapi-plugin-upload"]
  else none

def exDir : FPath := ["app"]

def exDeps : List String := ["strapi-plugin-users", "strapi-plugin-upload"]

def exFS : FS :=
  [ (["nm", "strapi-admin", "admin", "src", "app.js"], "base-app"),
    (["nm", "strapi-admin", "admin", "src", "x.js"], "base-x"),
    (["nm", "strapi-admin", "admin", "src", "plugins.js"], "base-manifest"),
    (["nm", "strapi-admin", "config", "layout.js"], "base-layout"),
    (["nm", "strapi-plugin-users", "admin", "src", "index.js"], "users-index"),
    (["nm", "strapi-plugin-users", "package.json"], "users-pkg"),
    (["nm", "strapi-plugin-upload", "admin", "src", "index.js"], "upload-index"),
    (["nm", "strapi-plugin-upload", "package.json"], "upload-pkg"),
    (["app", "admin", "src", "x.js"], "override-x"),
    (["app", "extensions", "users", "admin", "src", "index.js"], "ext-users-index") ]

/-- The merged tree the example project materializes to. -/
def exMaterialized : FS :=
  (createCacheDir exR (some exDeps) exDir exFS).toOption.getD []

/-- A resolver knowing only the base framework package. -/
def exR0 : String → Option FPath := fun n =>
  if n = "strapi-admin" then some ["nm", "strapi-admin"] else none

/-- A minimal healthy base installation. -/
def exFSbase : FS :=
  [ (["nm", "strapi-admin", "admin", "src", "app.js"], "base-app"),
    (["nm", "strapi-admin", "config", "layout.js"], "base-layout") ]

/-- The merged tree of the minimal base-only installation. -/
def exMaterializedBase : FS :=
  (createCacheDir exR0 (some []) exDir exFSbase).toOption.getD []

/-- Watch-session state for the manifest-regeneration counterexample: the
base package ships a nested file whose name contains "plugins.js", the
cache holds a stale manifest, and the users plugin has lost its admin
entry since the watch started. -/
def exFS6 : FS :=
  [ (["nm", "strapi-admin", "admin", "src", "foo", "plugins.js"], "orig-foo-pjs"),
    (["app", ".cache", "admin", "src", "plugins.js"], "stale-manifest"),
    (["app", ".cache", "admin", "src", "foo", "plugins.js"], "cached-foo-pjs") ]

/-- Watch-session state for the create/modify counterexample: one project
override file whose name starts with "admin". -/
def exFS9 : FS := [ (["app", "admin", "src", "admin.css"], "x-style") ]

/-- Watch-session state for the create/modify witness: one plain override
file. -/
def exFS9c : FS := [ (["app", "admin", "src", "y.js"], "c1") ]

/-- Watch-session state for the delete-fallback counterexample: the base
package ships a manifest file and the cache holds the previously generated
one. -/
def exFS2 : FS :=
  [ (["nm", "strapi-admin", "admin", "src", "plugins.js"], "base-manifest"),
    (["app", ".cache", "admin", "src", "plugins.js"], "old-cached") ]

/-! ### Lemma development -/

theorem FS.read_filter_ne (fs : FS) (p q : FPath) :
    FS.read (fs.filter (fun e => !decide (e.1 = p))) q =
      if q = p then none else FS.read fs q := by
  induction fs with
  | nil => simp [FS.read]
  | cons e rest ih =>
    by_cases he : e.1 = p
    · have hf : (e :: rest).filter (fun e => !decide (e.1 = p)) =
          rest.filter (fun e => !decide (e.1 = p)) := by
        simp [List.filter_cons, he]
      rw [hf, ih]
      by_cases hq : q = p
      · simp [hq]
      · have h1 : ¬ e.1 = q := by
          rw [he]; exact fun h => hq h.symm
        simp [FS.read, hq, h1]
    · have hf : (e :: rest).filter (fun e => !decide (e.1 = p)) =
          e :: rest.filter (fun e => !decide (e.1 = p)) := by
        simp [List.filter_cons, he]
      rw [hf]
      by_cases hq1 : e.1 = q
      · have hqp : ¬ q = p := by
          rw [← hq1]; exact he
        simp [FS.read, hq1, hqp]
      · simp [FS.read, hq1, ih]

theorem FS.read_write (fs : FS) (p : FPath) (c : String) (q : FPath) :
    FS.read (FS.write fs p c) q = if q = p then some c else FS.read fs q := by
  unfold FS.write
  by_cases hq : q = p
  · subst hq; simp [FS.read]
  · have hpq : ¬ p = q := fun h => hq h.symm
    simp only [FS.read, hpq, if_false, if_neg hq]
    rw [FS.read_filter_ne]
    simp [hq]

theorem FS.read_removeTree (fs : FS) (p q : FPath) :
    FS.read (FS.removeTree fs p) q =
      if p.isPrefixOf q then none else FS.read fs q := by
  induction fs with
  | nil => simp [FS.read, FS.removeTree]
  | cons e rest ih =>
    unfold FS.removeTree at *
    by_cases hpre : p.isPrefixOf e.1
    · by_cases hq : e.1 = q
      · subst hq; simp [FS.read, hpre, ih]
      · simp [FS.read, hpre, hq, ih]
    · by_cases hq : e.1 = q
      · subst hq; simp [FS.read, hpre]
      · simp [FS.read, hpre, hq, ih]

theorem FS.existsPath_iff (fs : FS) (p : FPath) :
    FS.existsPath fs p = true ↔
      ∃ q, p.isPrefixOf q = true ∧ (FS.read fs q).isSome := by
  induction fs with
  | nil => simp [FS.existsPath, FS.read]
  | cons e rest ih =>
    constructor
    · intro h
      simp only [FS.existsPath, List.any_cons, Bool.or_eq_true] at h
      rcases h with h | h
      · exact ⟨e.1, h, by simp [FS.read]⟩
      · rcases ih.mp h with ⟨q, hq, hr⟩
        refine ⟨q, hq, ?_⟩
        by_cases he : e.1 = q <;> simp [FS.read, he, hr]
    · rintro ⟨q, hq, hr⟩
      simp only [FS.existsPath, List.any_cons, Bool.or_eq_true]
      by_cases he : e.1 = q
      · exact Or.inl (he ▸ hq)
      · simp only [FS.read, he, if_false] at hr
        exact Or.inr (ih.mpr ⟨q, hq, hr⟩)

theorem FS.read_none_of_not_existsPath {fs : FS} {p : FPath}
    (h : FS.existsPath fs p = false) (r : FPath) :
    FS.read fs (p ++ r) = none := by
  by_contra hc
  have : (FS.read fs (p ++ r)).isSome := by
    cases hr : FS.read fs (p ++ r) with
    | none => exact absurd hr hc
    | some c => simp
  have := (FS.existsPath_iff fs p).mpr ⟨p ++ r, by simp [List.isPrefixOf_iff_prefix], this⟩
  rw [h] at this
  exact Bool.false_ne_true this

@[simp] theorem pick_some {α : Type} (c : α) (b : Option α) :
    pick (some c) b = some c := rfl

@[simp] theorem pick_none {α : Type} (b : Option α) : pick none b = b := rfl

theorem pick_eq_of_isSome {α : Type} {a : Option α} (h : a.isSome) (b : Option α) :
    pick a b = a := by
  cases a with
  | none => simp at h
  | some c => rfl

/-! ### Prefix helper lemmas -/

theorem prefix_total {α : Type} {a b c : List α} (h1 : a <+: c) (h2 : b <+: c) :
    a <+: b ∨ b <+: a := by
  rcases Nat.le_total a.length b.length with h | h
  · exact Or.inl (List.prefix_of_prefix_length_le h1 h2 h)
  · exact Or.inr (List.prefix_of_prefix_length_le h2 h1 h)

theorem append_drop_restores {p q : FPath} (h : p.isPrefixOf q = true) :
    p ++ q.drop p.length = q := by
  rcases List.isPrefixOf_iff_prefix.mp h with ⟨t, ht⟩
  subst ht
  simp

/-- Two incomparable paths stay incomparable when the second is extended:
no descendant of `root` lies at or below `a`. -/
theorem not_prefix_of_incomp {a root : FPath} (sub : FPath)
    (h1 : ¬ a <+: root) (h2 : ¬ root <+: a) : ¬ a <+: (root ++ sub) := by
  intro h
  rcases prefix_total h (List.prefix_append root sub) with hc | hc
  · exact h1 hc
  · exact h2 hc

theorem singleton_component_incomparable {base : FPath} {a b : String}
    (hab : a ≠ b) (l1 l2 : FPath) :
    ¬ (base ++ a :: l1) <+: (base ++ b :: l2) := by
  rintro ⟨t, ht⟩
  have ht2 : base ++ (a :: (l1 ++ t)) = base ++ b :: l2 := by
    simpa using ht
  have := List.append_cancel_left ht2
  simp only [List.cons.injEq] at this
  exact hab this.1

/-! ### Well-formedness preservation -/

theorem FS.Wf.write {fs : FS} (wf : FS.Wf fs) (p : FPath) (c : String) :
    FS.Wf (FS.write fs p c) := by
  unfold FS.Wf FS.write at *
  simp only [List.map_cons, List.nodup_cons]
  constructor
  · intro hmem
    rcases List.mem_map.mp hmem with ⟨e, he, hkey⟩
    have := List.of_mem_filter he
    simp only [Bool.not_eq_true'] at this
    rw [hkey] at this
    simp at this
  · exact List.Nodup.sublist (List.Sublist.map Prod.fst (List.filter_sublist fs)) wf

theorem FS.Wf.removeTree {fs : FS} (wf : FS.Wf fs) (p : FPath) :
    FS.Wf (FS.removeTree fs p) :=
  List.Nodup.sublist (List.Sublist.map Prod.fst (List.filter_sublist fs)) wf

theorem FS.Wf.writeList {fs : FS} (wf : FS.Wf fs) (l : List (FPath × String)) :
    FS.Wf (FS.writeList fs l) := by
  induction l generalizing fs with
  | nil => exact wf
  | cons e rest ih => exact ih (wf.write e.1 e.2)

theorem FS.Wf.copyTree {fs : FS} (wf : FS.Wf fs) (src dst : FPath) :
    FS.Wf (FS.copyTree fs src dst) :=
  wf.writeList _

/-! ### Reads, membership and keys -/

theorem FS.read_isSome_iff_mem_keys (fs : FS) (q : FPath) :
    (FS.read fs q).isSome = true ↔ q ∈ fs.map Prod.fst := by
  induction fs with
  | nil => simp [FS.read]
  | cons e rest ih =>
    by_cases he : e.1 = q
    · simp [FS.read, he]
    · have : ¬ q = e.1 := fun h => he h.symm
      simp [FS.read, he, ih, this]

theorem FS.read_eq_none_iff (fs : FS) (q : FPath) :
    FS.read fs q = none ↔ q ∉ fs.map Prod.fst := by
  rw [← FS.read_isSome_iff_mem_keys]
  cases h : FS.read fs q <;> simp [h]

theorem FS.read_eq_some_iff_mem {fs : FS} (wf : FS.Wf fs) (q : FPath) (c : String) :
    FS.read fs q = some c ↔ (q, c) ∈ fs := by
  induction fs with
  | nil => simp [FS.read]
  | cons e rest ih =>
    obtain ⟨k, v⟩ := e
    rw [FS.Wf, List.map_cons, List.nodup_cons] at wf
    by_cases he : k = q
    · subst he
      have hr : FS.read ((k, v) :: rest) k = some v := by simp [FS.read]
      rw [hr]
      simp only [Option.some.injEq, List.mem_cons, Prod.mk.injEq]
      constructor
      · intro h
        subst h
        simp
      · rintro (⟨_, h⟩ | h)
        · exact h.symm
        · exact absurd (List.mem_map.mpr ⟨(k, c), h, rfl⟩) wf.1
    · simp only [FS.read, if_neg he, List.mem_cons, Prod.mk.injEq, ih wf.2]
      constructor
      · exact Or.inr
      · rintro (⟨h, _⟩ | h)
        · exact absurd h.symm he
        · exact h

/-! ### Subtree lemmas -/

theorem FS.mem_subtree (fs : FS) (src r : FPath) (c : String) :
    (r, c) ∈ FS.subtree fs src ↔ (src ++ r, c) ∈ fs := by
  unfold FS.subtree
  rw [List.mem_filterMap]
  constructor
  · rintro ⟨e, he, hf⟩
    by_cases hpre : src.isPrefixOf e.1
    · simp only [hpre, if_pos, Option.some.injEq] at hf
      have h1 : e.1.drop src.length = r := congrArg Prod.fst hf
      have h2 : e.2 = c := congrArg Prod.snd hf
      have he1 : src ++ r = e.1 := by
        rw [← h1]; exact append_drop_restores hpre
      rw [he1, ← h2]
      exact he
    · simp [hpre] at hf
  · intro h
    refine ⟨(src ++ r, c), h, ?_⟩
    have hpre : src.isPrefixOf (src ++ r) = true :=
      List.isPrefixOf_iff_prefix.mpr (List.prefix_append src r)
    simp [hpre]

theorem FS.subtree_keys_nodup {fs : FS} (wf : FS.Wf fs) (src : FPath) :
    ((FS.subtree fs src).map Prod.fst).Nodup := by
  induction fs with
  | nil => simp [FS.subtree]
  | cons e rest ih =>
    have wfc := List.nodup_cons.mp wf
    unfold FS.subtree at *
    by_cases hpre : src.isPrefixOf e.1
    · simp only [List.filterMap_cons, hpre, if_pos]
      simp only [List.map_cons, List.nodup_cons]
      refine ⟨?_, ih wfc.2⟩
      intro hmem
      rcases List.mem_map.mp hmem with ⟨x, hx, hkey⟩
      rcases List.mem_filterMap.mp hx with ⟨e', he', hf⟩
      by_cases hpre' : src.isPrefixOf e'.1
      · simp only [hpre', if_pos, Option.some.injEq] at hf
        have h1 : e'.1.drop src.length = x.1 := congrArg Prod.fst hf
        have : e'.1 = e.1 := by
          rw [← append_drop_restores hpre', ← append_drop_restores hpre, h1, hkey]
        apply wfc.1
        rw [← this]
        exact List.mem_map.mpr ⟨e', he', rfl⟩
      · simp [hpre'] at hf
    · simp only [List.filterMap_cons, hpre, if_neg]
      exact ih wfc.2

/-! ### The central copy lemma -/

theorem FS.read_writeList (l : List (FPath × String)) (fs : FS) (q : FPath)
    (hnd : (l.map Prod.fst).Nodup) :
    FS.read (FS.writeList fs l) q =
      pick ((l.find? (fun e => decide (e.1 = q))).map Prod.snd) (FS.read fs q) := by
  induction l generalizing fs with
  | nil => simp [FS.writeList, pick]
  | cons e rest ih =>
    rw [List.map_cons, List.nodup_cons] at hnd
    have step : FS.writeList fs (e :: rest) = FS.writeList (FS.write fs e.1 e.2) rest := rfl
    rw [step, ih _ hnd.2]
    by_cases hq : e.1 = q
    · subst hq
      have hfind : rest.find? (fun x => decide (x.1 = e.1)) = none := by
        rw [List.find?_eq_none]
        intro x hx
        simp only [decide_eq_true_eq]
        intro hkey
        exact hnd.1 (by rw [← hkey]; exact List.mem_map.mpr ⟨x, hx, rfl⟩)
      have hfind2 : List.find? (fun x : FPath × String => decide (x.1 = e.1)) (e :: rest) =
          some e := by
        simp [List.find?]
      rw [hfind, hfind2]
      simp [FS.read_write]
    · have hfind2 : List.find? (fun x : FPath × String => decide (x.1 = q)) (e :: rest) =
          List.find? (fun x : FPath × String => decide (x.1 = q)) rest := by
        simp [List.find?, hq]
      rw [hfind2]
      cases hfind : rest.find? (fun x => decide (x.1 = q)) with
      | some x => simp [hfind]
      | none =>
        simp only [hfind, Option.map_none', pick_none]
        rw [FS.read_write, if_neg (fun h => hq h.symm)]

theorem FS.find?_key_subtree {fs : FS} (wf : FS.Wf fs) (src r : FPath) :
    ((FS.subtree fs src).find? (fun e => decide (e.1 = r))).map Prod.snd =
      FS.read fs (src ++ r) := by
  cases hread : FS.read fs (src ++ r) with
  | none =>
    have hnk : src ++ r ∉ fs.map Prod.fst := (FS.read_eq_none_iff fs _).mp hread
    have : (FS.subtree fs src).find? (fun e => decide (e.1 = r)) = none := by
      rw [List.find?_eq_none]
      rintro ⟨k, v⟩ hx
      simp only [decide_eq_true_eq]
      intro hkey
      subst hkey
      have := (FS.mem_subtree fs src k v).mp hx
      exact hnk (List.mem_map.mpr ⟨(src ++ k, v), this, rfl⟩)
    simp [this]
  | some c =>
    have hmem : (r, c) ∈ FS.subtree fs src :=
      (FS.mem_subtree fs src r c).mpr ((FS.read_eq_some_iff_mem wf _ c).mp hread)
    cases hfind : (FS.subtree fs src).find? (fun e => decide (e.1 = r)) with
    | none =>
      exfalso
      have := List.find?_eq_none.mp hfind _ hmem
      simp at this
    | some x =>
      have hx := List.find?_some hfind
      have hxmem := List.mem_of_find?_eq_some hfind
      simp only [decide_eq_true_eq] at hx
      have hxm : (r, x.2) ∈ FS.subtree fs src := by
        cases x with
        | mk k v => simp only at hx; subst hx; exact hxmem
      have hfsmem := (FS.mem_subtree fs src r x.2).mp hxm
      have := (FS.read_eq_some_iff_mem wf _ x.2).mpr hfsmem
      rw [hread] at this
      simp only [Option.some.injEq] at this
      simp [this]

/-- What `fs.copy src dst` leaves at `q`: inside the destination the source
file (when it exists) wins, everything else is untouched. -/
theorem FS.read_copyTree {fs : FS} (wf : FS.Wf fs) (src dst q : FPath) :
    FS.read (FS.copyTree fs src dst) q =
      if dst.isPrefixOf q then
        pick (FS.read fs (src ++ q.drop dst.length)) (FS.read fs q)
      else FS.read fs q := by
  unfold FS.copyTree
  have hnd : (((FS.subtree fs src).map (fun e => (dst ++ e.1, e.2))).map Prod.fst).Nodup := by
    have h1 : ((FS.subtree fs src).map (fun e => (dst ++ e.1, e.2))).map Prod.fst =
        ((FS.subtree fs src).map Prod.fst).map (fun k => dst ++ k) := by
      simp [List.map_map, Function.comp]
    rw [h1]
    exact List.Nodup.map (fun a b h => List.append_cancel_left h) (FS.subtree_keys_nodup wf src)
  rw [FS.read_writeList _ _ _ hnd]
  by_cases hpre : dst.isPrefixOf q
  · simp only [hpre, if_pos]
    have hq : dst ++ q.drop dst.length = q := append_drop_restores hpre
    have hfun : ((fun e : FPath × String => decide (e.1 = q)) ∘
        (fun e : FPath × String => (dst ++ e.1, e.2))) =
        (fun e : FPath × String => decide (e.1 = q.drop dst.length)) := by
      funext e
      simp only [Function.comp]
      by_cases he : e.1 = q.drop dst.length
      · simp [he, hq]
      · have hne : ¬ dst ++ e.1 = q := by
          intro hc
          apply he
          have h2 : dst ++ e.1 = dst ++ q.drop dst.length := by rw [hc, hq]
          exact List.append_cancel_left h2
        simp [he, hne]
    rw [List.find?_map, hfun, Option.map_map]
    have hcomp : Prod.snd ∘ (fun e : FPath × String => (dst ++ e.1, e.2)) =
        (Prod.snd : FPath × String → String) := by
      funext e
      rfl
    rw [hcomp, FS.find?_key_subtree wf]
  · simp only [hpre, if_neg]
    have hfind : ((FS.subtree fs src).map (fun e => (dst ++ e.1, e.2))).find?
        (fun e => decide (e.1 = q)) = none := by
      rw [List.find?_eq_none]
      intro x hx
      rcases List.mem_map.mp hx with ⟨e, he, hfe⟩
      simp only [decide_eq_true_eq]
      intro hkey
      apply hpre
      rw [← hkey, ← hfe]
      exact List.isPrefixOf_iff_prefix.mpr (List.prefix_append dst e.1)
    rw [hfind]
    simp

theorem pick_none_right {α : Type} (a : Option α) : pick a none = a := by
  cases a <;> rfl

theorem intercalate_singleton (sep a : String) : String.intercalate sep [a] = a := by
  simp [String.intercalate, String.intercalate.go]

/-! ### C4: the build result mapping -/

/-- C4: the build promise resolves (with the stats and the warnings list)
exactly when the bundler reported zero errors; with one or more reported
errors it rejects carrying only the first message, every further message
suppressed; a fatal bundler error with a message is treated as a one-error
report; and a successful materialization passes the bundler report straight
to this mapping. -/
theorem C4_build_first_error_policy :
    (∀ err stats, (∃ s w, buildMap err stats = .resolved s w) ↔
        (err = none ∧ stats.errors = [])) ∧
    (∀ w, buildMap none ⟨[], w⟩ = .resolved ⟨[], w⟩ w) ∧
    (∀ e rest w, buildMap none ⟨e :: rest, w⟩ = .rejectedMsg e) ∧
    (∀ m stats, buildMap (some (some m)) stats = .rejectedMsg m) ∧
    (∀ R pkgDeps dir fs fs' err stats, createCacheDir R pkgDeps dir fs = .ok fs' →
        buildE R pkgDeps dir fs err stats = .ok (buildMap err stats)) := by
  refine ⟨?_, ?_, ?_, ?_, ?_⟩
  · intro err stats
    constructor
    · rintro ⟨s, w, h⟩
      match err with
      | none =>
        refine ⟨rfl, ?_⟩
        cases he : stats.errors with
        | nil => rfl
        | cons e rest => simp [buildMap, finishBuild, he] at h
      | some none => simp [buildMap] at h
      | some (some m) => simp [buildMap, finishBuild] at h
    · rintro ⟨rfl, he⟩
      exact ⟨stats, stats.warnings, by simp [buildMap, finishBuild, he]⟩
  · intro w
    simp [buildMap, finishBuild]
  · intro e rest w
    cases rest with
    | nil => simp [buildMap, finishBuild, firstErrorOnly, intercalate_singleton]
    | cons b t => simp [buildMap, finishBuild, firstErrorOnly, intercalate_singleton]
  · intro m stats
    simp [buildMap, finishBuild, firstErrorOnly, intercalate_singleton]
  · intro R pkgDeps dir fs fs' err stats h
    simp [buildE, h, bind, Except.bind, pure, Except.pure]

/-- C4 witness: a concrete successful materialization followed by a
zero-error bundler report resolves with the report's stats and warnings. -/
theorem C4_witness :
    createCacheDir exR (some exDeps) exDir exFS = .ok exMaterialized ∧
    buildE exR (some exDeps) exDir exFS none ⟨[], ["w1"]⟩ =
      .ok (.resolved ⟨[], ["w1"]⟩ ["w1"]) := by
  constructor
  · rfl
  · have h := C4_build_first_error_policy.2.2.2.2 exR (some exDeps) exDir exFS
      exMaterialized none ⟨[], ["w1"]⟩ rfl
    rw [h]
    rfl

/-! ### C5: manifest determinism -/

/-- C5: createPluginsJs run against any two prior tree states but identical
plugin lists leaves byte-identical text at its destination — the generated
manifest is a pure function of the plugin list. -/
theorem C5_manifest_determinism :
    ∀ (plugins : List String) (dest : FPath) (fs1 fs2 : FS),
      FS.read (createPluginsJsFS plugins dest fs1) (dest ++ ["admin", "src", "plugins.js"]) =
        FS.read (createPluginsJsFS plugins dest fs2) (dest ++ ["admin", "src", "plugins.js"]) ∧
      FS.read (createPluginsJsFS plugins dest fs1) (dest ++ ["admin", "src", "plugins.js"]) =
        some (pluginsJsContent plugins) := by
  intro plugins dest fs1 fs2
  unfold createPluginsJsFS
  rw [FS.read_write, FS.read_write]
  simp

/-! ### C8: the manifest's export mapping -/

theorem quotedKey_eq (s : String) : quotedKey s = "'" ++ s ++ "'" := by
  have hc : ("'" : String).data = [squoteChar] := by decide
  apply String.ext
  rw [String.data_append, String.data_append, hc]
  show squoteChar :: s.data ++ [squoteChar] = _
  simp

theorem manifestEntryText_eq (k v : String) :
    manifestEntryText (k, v) = quotedKey k ++ ": " ++ v := by
  rw [quotedKey_eq]
  apply String.ext
  have h2 : ("': " : String).data = ("'" : String).data ++ (": " : String).data := by
    decide
  simp only [manifestEntryText, String.data_append, h2, List.append_assoc]
  rfl

/-- C8 (amended): the manifest lists, in dependency-declaration order, each
plugin's short name wrapped in single quotes as the mapping key — with no
escaping applied, which round-trips as a JS string literal exactly for
names free of quotes and backslashes — bound to that plugin's entry; under
JS object semantics a repeated short name is bound to the later-declared
plugin's entry. -/
theorem C8_manifest_mapping :
    (∀ plugins key, jsObjectBinding (manifestEntries plugins) key =
        (plugins.reverse.find? (fun n => decide (stripPluginPrefix n = key))).map
          requireEntry) ∧
    (∀ plugins, (manifestEntries plugins).map Prod.fst =
        plugins.map stripPluginPrefix) ∧
    (∀ plugins, pluginsJsContent plugins =
        manifestHeader ++ String.intercalate ",\n"
          (plugins.map (fun n => quotedKey (stripPluginPrefix n) ++ ": " ++ requireEntry n)) ++
        manifestFooter) ∧
    (∀ s : String, s.data.all (fun c => c != squoteChar && c != backslashChar) = true →
        parseSingleQuoted (quotedKey s) = some s) := by
  refine ⟨?_, ?_, ?_, ?_⟩
  · intro plugins key
    unfold jsObjectBinding manifestEntries
    rw [← List.map_reverse, List.find?_map, Option.map_map]
    rfl
  · intro plugins
    simp [manifestEntries]
  · intro plugins
    unfold pluginsJsContent manifestEntries
    rw [List.map_map]
    have hmap : List.map
        (manifestEntryText ∘ fun name => (stripPluginPrefix name, requireEntry name)) plugins =
        List.map (fun n => quotedKey (stripPluginPrefix n) ++ ": " ++ requireEntry n) plugins := by
      apply List.map_congr_left
      intro n _
      exact manifestEntryText_eq (stripPluginPrefix n) (requireEntry n)
    rw [hmap]
  · intro s hs
    obtain ⟨l⟩ := s
    have hl : l.all (fun c => c != squoteChar && c != backslashChar) = true := hs
    show (if squoteChar = squoteChar then
        match (l ++ [squoteChar]).getLast? with
        | some q2 =>
          if q2 = squoteChar && (l ++ [squoteChar]).dropLast.all
              (fun c => c != squoteChar && c != backslashChar) then
            some (String.mk (l ++ [squoteChar]).dropLast)
          else none
        | none => none
      else none) = some (String.mk l)
    rw [if_pos rfl, List.getLast?_concat]
    show (if squoteChar = squoteChar && (l ++ [squoteChar]).dropLast.all
        (fun c => c != squoteChar && c != backslashChar) then
      some (String.mk (l ++ [squoteChar]).dropLast) else none) = some (String.mk l)
    rw [List.dropLast_concat]
    simp [hl]

/-- C8 counterexample: a short name containing a quote is spliced between
quotes unescaped, so the emitted key is not a safely escaped/quoted literal
of the short name — it does not even parse as a string literal. -/
theorem C8_counterexample :
    stripPluginPrefix "strapi-plugin-a'b" = "a'b" ∧
    manifestEntryText (stripPluginPrefix "strapi-plugin-a'b",
        requireEntry "strapi-plugin-a'b") =
      "'a'b': require('../../plugins/strapi-plugin-a'b/admin/src').default" ∧
    parseSingleQuoted (quotedKey (stripPluginPrefix "strapi-plugin-a'b")) = none := by
  refine ⟨by decide, by decide, by decide⟩

/-- C8 witness: a clean short name round-trips through the quoting, and on
a colliding pair of declared names the later one's entry is bound. -/
theorem C8_witness :
    ("users".data.all (fun c => c != squoteChar && c != backslashChar) = true) ∧
    parseSingleQuoted (quotedKey "users") = some "users" ∧
    jsObjectBinding
        (manifestEntries ["strapi-pluginfoo", "strapi-plugin-strapi-pluginfoo"])
        "strapi-pluginfoo" =
      some (requireEntry "strapi-plugin-strapi-pluginfoo") := by
  refine ⟨by decide, C8_manifest_mapping.2.2.2 "users" (by decide), ?_⟩
  rw [C8_manifest_mapping.1]
  decide

/-! ### C7: plugin discovery failure behavior -/

theorem hasAdminEntry_skip {R : String → Option FPath} {fs : FS} {d : String}
    {root : FPath} (hres : R d = some root)
    (hex : FS.existsPath fs (root ++ ["admin", "src", "index.js"]) = false) :
    hasAdminEntryE R fs d = .ok false := by
  unfold hasAdminEntryE
  by_cases hp : jsStartsWith d "strapi-plugin" = true
  · simp [hp, getPkgPath, hres, hex, bind, Except.bind, pure, Except.pure]
  · simp [hp, pure, Except.pure]

theorem pluginsToCopyE_error {R : String → Option FPath} {fs : FS}
    {deps : List String} {d : String} (hmem : d ∈ deps)
    (hpre : jsStartsWith d "strapi-plugin" = true) (hres : R d = none) :
    ∃ msg, pluginsToCopyE R fs deps = .error msg := by
  induction deps with
  | nil => simp at hmem
  | cons e rest ih =>
    rcases List.mem_cons.mp hmem with rfl | hmem'
    · refine ⟨"Cannot find module " ++ d, ?_⟩
      simp [pluginsToCopyE, hasAdminEntryE, hpre, getPkgPath, hres, bind, Except.bind]
    · cases he : hasAdminEntryE R fs e with
      | error m => exact ⟨m, by simp [pluginsToCopyE, he, bind, Except.bind]⟩
      | ok b =>
        rcases ih hmem' with ⟨m, hm⟩
        exact ⟨m, by simp [pluginsToCopyE, he, hm, bind, Except.bind]⟩

theorem pluginsToCopyE_skip {R : String → Option FPath} {fs : FS} {d : String}
    (hd : hasAdminEntryE R fs d = .ok false) (deps1 deps2 : List String) :
    pluginsToCopyE R fs (deps1 ++ d :: deps2) = pluginsToCopyE R fs (deps1 ++ deps2) := by
  induction deps1 with
  | nil =>
    cases ht : pluginsToCopyE R fs deps2 with
    | error m => simp [pluginsToCopyE, hd, ht, bind, Except.bind]
    | ok t => simp [pluginsToCopyE, hd, ht, bind, Except.bind, pure, Except.pure]
  | cons e rest ih =>
    cases he : hasAdminEntryE R fs e with
    | error m => simp [pluginsToCopyE, he, bind, Except.bind]
    | ok b => simp [pluginsToCopyE, he, ih, bind, Except.bind]

/-- C7 (amended): a missing or unparseable project manifest is fatal, and a
declared plugin-prefixed dependency whose package root cannot be resolved
is also fatal — require.resolve throws inside the discovery filter (lines
95-99) with no catch.  Only a plugin whose root resolves but which lacks
the admin entry module is excluded, with materialization proceeding exactly
as if it were not declared. -/
theorem C7_discovery_failures :
    (∀ R dir fs, createCacheDir R none dir fs =
        .error "Cannot find module package.json") ∧
    (∀ R deps dir fs d, d ∈ deps → jsStartsWith d "strapi-plugin" = true →
        R d = none → ∃ msg, createCacheDir R (some deps) dir fs = .error msg) ∧
    (∀ R deps1 deps2 d root dir fs, R d = some root →
        FS.existsPath fs (root ++ ["admin", "src", "index.js"]) = false →
        createCacheDir R (some (deps1 ++ d :: deps2)) dir fs =
          createCacheDir R (some (deps1 ++ deps2)) dir fs) := by
  refine ⟨?_, ?_, ?_⟩
  · intro R dir fs
    rfl
  · intro R deps dir fs d hmem hpre hres
    rcases @pluginsToCopyE_error R fs deps d hmem hpre hres with ⟨m, hm⟩
    exact ⟨m, by simp [createCacheDir, hm, bind, Except.bind]⟩
  · intro R deps1 deps2 d root dir fs hres hex
    have hd := hasAdminEntry_skip hres hex
    simp only [createCacheDir, bind, Except.bind, pluginsToCopyE_skip hd deps1 deps2]

/-- C7 counterexample: one declared plugin-prefixed dependency whose root
does not resolve makes the whole materialization fail — it is not excluded
and skipped — while the same project without it materializes fine. -/
theorem C7_counterexample :
    exR0 "strapi-plugin-x" = none ∧
    createCacheDir exR0 (some ["strapi-plugin-x"]) ["app"] exFSbase =
      .error "Cannot find module strapi-plugin-x" ∧
    isOkE (createCacheDir exR0 (some []) ["app"] exFSbase) = true := by
  exact ⟨rfl, rfl, rfl⟩

/-- C7 witness: a resolvable plugin without an admin entry module is
excluded and materialization proceeds as if it were undeclared. -/
theorem C7_witness :
    exR "strapi-plugin-users" = some ["nm", "strapi-plugin-users"] ∧
    FS.existsPath exFSbase
      (["nm", "strapi-plugin-users"] ++ ["admin", "src", "index.js"]) = false ∧
    createCacheDir exR (some ["strapi-plugin-users"]) ["app"] exFSbase =
      createCacheDir exR (some []) ["app"] exFSbase :=
  ⟨rfl, by decide,
    C7_discovery_failures.2.2 exR [] [] "strapi-plugin-users"
      ["nm", "strapi-plugin-users"] ["app"] exFSbase rfl (by decide)⟩

/-! ### Watcher helper lemmas -/

theorem bool_prefix_of_not_false {d q : FPath} (h : ¬ d.isPrefixOf q = false) :
    d.isPrefixOf q = true := by
  cases hb : d.isPrefixOf q
  · exact absurd hb h
  · rfl

theorem not_prefix_of_pathDisj_left {d o : FPath} (h : PathDisj d o) {q : FPath}
    (hq : o.isPrefixOf q = true) : d.isPrefixOf q = false := by
  by_contra hc
  have hd := bool_prefix_of_not_false hc
  rcases prefix_total (List.isPrefixOf_iff_prefix.mp hd)
      (List.isPrefixOf_iff_prefix.mp hq) with hcc | hcc
  · have hb : List.isPrefixOf d o = true := List.isPrefixOf_iff_prefix.mpr hcc
    rw [h.1] at hb
    exact Bool.false_ne_true hb
  · have hb : List.isPrefixOf o d = true := List.isPrefixOf_iff_prefix.mpr hcc
    rw [h.2] at hb
    exact Bool.false_ne_true hb

theorem FS.existsPath_congr {g1 g2 : FS} {o : FPath}
    (h : ∀ q, o.isPrefixOf q = true → FS.read g1 q = FS.read g2 q) :
    FS.existsPath g1 o = FS.existsPath g2 o := by
  have h1 : (FS.existsPath g1 o = true) ↔ (FS.existsPath g2 o = true) := by
    rw [FS.existsPath_iff, FS.existsPath_iff]
    constructor
    · rintro ⟨q, hq, hr⟩
      exact ⟨q, hq, by rw [← h q hq]; exact hr⟩
    · rintro ⟨q, hq, hr⟩
      exact ⟨q, hq, by rw [h q hq]; exact hr⟩
  cases h2 : FS.existsPath g2 o with
  | true => exact h1.mpr h2
  | false =>
    cases h3 : FS.existsPath g1 o with
    | false => rfl
    | true =>
      have h4 := h1.mp h3
      rw [h2] at h4
      exact absurd h4 (by simp)

theorem existsPath_removeTree_of_disj {fs : FS} {d o : FPath} (h : PathDisj d o) :
    FS.existsPath (FS.removeTree fs d) o = FS.existsPath fs o := by
  apply FS.existsPath_congr
  intro q hq
  rw [FS.read_removeTree]
  have := not_prefix_of_pathDisj_left h hq
  simp [this]

theorem read_removeTree_of_disj {fs : FS} {d o : FPath} (h : PathDisj d o)
    {q : FPath} (hq : o.isPrefixOf q = true) :
    FS.read (FS.removeTree fs d) q = FS.read fs q := by
  rw [FS.read_removeTree]
  have := not_prefix_of_pathDisj_left h hq
  simp [this]

/-- Normal form of the handler on a delete event with a resolvable package
name (the structure of lines 272-315). -/
theorem handleEvent_delete {R : String → Option FPath} {appPlugins : List String}
    {dir : FPath} {f : FailSpec} {ev : WEvent} {p : FPath} {fs : FS} {pkgRoot : FPath}
    (hev : ev = WEvent.unlink ∨ ev = WEvent.unlinkDir)
    (hroot : R (packageNameOf p) = some pkgRoot) :
    handleEvent R appPlugins dir f ev p fs =
      (let target := targetPathOf p
       let dest := destFolderOf dir p ++ target
       let original := pkgRoot ++
         (if isExtensionOf p then ([] : FPath) else ["admin"]) ++ target
       let st1 : FS × List WAction :=
         if f.removeFails then
           (fs, [WAction.logged "An error occured while deleting the file"])
         else (FS.removeTree fs dest, [WAction.removed dest])
       if FS.existsPath st1.1 original then
         if f.restoreFails then .ok st1
         else
           if regenTrigger (decide (ev = WEvent.unlinkDir)) (isExtensionOf p) p then
             if f.regenFails then
               .ok (FS.copyTree st1.1 original dest,
                 st1.2 ++ [WAction.restored original dest])
             else
               .ok (createPluginsJsFS appPlugins (dir ++ [".cache"])
                   (FS.copyTree st1.1 original dest),
                 st1.2 ++ [WAction.restored original dest] ++ [WAction.regen])
           else .ok (FS.copyTree st1.1 original dest,
             st1.2 ++ [WAction.restored original dest])
       else .ok st1) := by
  unfold handleEvent
  rw [if_pos hev, hroot]

/-- Normal form of the handler on a create/modify event (lines 316-323). -/
theorem handleEvent_copy {R : String → Option FPath} {appPlugins : List String}
    {dir : FPath} {f : FailSpec} {ev : WEvent} {p : FPath} {fs : FS}
    (hev : ¬(ev = WEvent.unlink ∨ ev = WEvent.unlinkDir)) :
    handleEvent R appPlugins dir f ev p fs =
      if f.copyFails || !FS.existsPath fs p then
        .ok (fs, [WAction.logged "copy error"])
      else
        .ok (FS.copyTree fs p (destFolderOf dir p ++ targetPathOf p),
          [WAction.copied p (destFolderOf dir p ++ targetPathOf p)]) := by
  unfold handleEvent
  rw [if_neg hev]

/-! ### C10: watch-phase failure containment -/

/-- C10 (amended): with a resolvable package name, every injected failure
of a delete, restore, regeneration or copy step is caught — the handler
always settles without an uncaught throw, so the watcher continues and
never retries.  Failed deletes and failed create/modify copies are logged;
restore and regeneration failures are caught silently: whenever the delete
step itself does not fail, the delete-event handler logs nothing at all,
whatever restore or regeneration failures are injected. -/
theorem C10_watch_failures_contained :
    ∀ (R : String → Option FPath) (appPlugins : List String) (dir : FPath)
      (f : FailSpec) (ev : WEvent) (p : FPath) (fs : FS),
      ((ev = WEvent.unlink ∨ ev = WEvent.unlinkDir) → (R (packageNameOf p)).isSome) →
      (isOkE (handleEvent R appPlugins dir f ev p fs) = true ∧
       (f.removeFails = true → (ev = WEvent.unlink ∨ ev = WEvent.unlinkDir) →
         WAction.logged "An error occured while deleting the file" ∈
           traceOf (handleEvent R appPlugins dir f ev p fs)) ∧
       ((ev = WEvent.unlink ∨ ev = WEvent.unlinkDir) → f.removeFails = false →
         ∀ m, WAction.logged m ∉ traceOf (handleEvent R appPlugins dir f ev p fs)) ∧
       (¬(ev = WEvent.unlink ∨ ev = WEvent.unlinkDir) → f.copyFails = true →
         WAction.logged "copy error" ∈
           traceOf (handleEvent R appPlugins dir f ev p fs))) := by
  intro R appPlugins dir f ev p fs hres
  by_cases hev : ev = WEvent.unlink ∨ ev = WEvent.unlinkDir
  · cases hR : R (packageNameOf p) with
    | none =>
      have := hres hev
      rw [hR] at this
      simp at this
    | some root =>
      rw [handleEvent_delete hev hR]
      simp only []
      by_cases hrm : f.removeFails = true
      · by_cases hex : FS.existsPath fs
            (root ++ ((if isExtensionOf p then ([] : FPath) else ["admin"]) ++
              targetPathOf p)) = true
        · by_cases hrs : f.restoreFails = true
          · simp [hrm, hex, hrs, isOkE, traceOf, hev]
          · by_cases hrt : regenTrigger (decide (ev = WEvent.unlinkDir))
                (isExtensionOf p) p = true
            · by_cases hrg : f.regenFails = true
              · simp [hrm, hex, hrs, hrt, hrg, isOkE, traceOf, hev]
              · simp [hrm, hex, hrs, hrt, hrg, isOkE, traceOf, hev]
            · simp [hrm, hex, hrs, hrt, isOkE, traceOf, hev]
        · simp [hrm, hex, isOkE, traceOf, hev]
      · by_cases hex : FS.existsPath
            (FS.removeTree fs (destFolderOf dir p ++ targetPathOf p))
            (root ++ ((if isExtensionOf p then ([] : FPath) else ["admin"]) ++
              targetPathOf p)) = true
        · by_cases hrs : f.restoreFails = true
          · simp [hrm, hex, hrs, isOkE, traceOf, hev]
          · by_cases hrt : regenTrigger (decide (ev = WEvent.unlinkDir))
                (isExtensionOf p) p = true
            · by_cases hrg : f.regenFails = true
              · simp [hrm, hex, hrs, hrt, hrg, isOkE, traceOf, hev]
              · simp [hrm, hex, hrs, hrt, hrg, isOkE, traceOf, hev]
            · simp [hrm, hex, hrs, hrt, isOkE, traceOf, hev]
        · simp [hrm, hex, isOkE, traceOf, hev]
  · rw [handleEvent_copy hev]
    by_cases hcf : (f.copyFails || !FS.existsPath fs p) = true
    · simp [hcf, isOkE, traceOf, hev]
    · have hc1 : f.copyFails = false := by
        revert hcf
        cases f.copyFails <;> simp
      refine ⟨?_, ?_, ?_, ?_⟩
      · cases hep : FS.existsPath fs p <;> simp [hcf, hc1, isOkE, hep]
      · intro _ hd
        exact absurd hd hev
      · intro hd
        exact absurd hd hev
      · intro _ hc
        rw [hc1] at hc
        exact absurd hc (by simp)

/-- C10 counterexample: a failed restore step is caught but nothing is
logged — the trace of the delete event contains no log entry at all,
contradicting "caught and logged" for restore failures. -/
theorem C10_counterexample :
    handleEvent exR [] ["app"] ⟨false, true, false, false⟩ WEvent.unlink
        ["app", "admin", "src", "x.js"] exFS =
      .ok (FS.removeTree exFS ["app", ".cache", "admin", "src", "x.js"],
        [WAction.removed ["app", ".cache", "admin", "src", "x.js"]]) ∧
    (∀ m, WAction.logged m ∉
      traceOf (handleEvent exR [] ["app"] ⟨false, true, false, false⟩ WEvent.unlink
        ["app", "admin", "src", "x.js"] exFS)) ∧
    FS.existsPath exFS (["nm", "strapi-admin"] ++ ["admin"] ++ ["src", "x.js"]) = true := by
  refine ⟨by decide, ?_, by decide⟩
  intro m
  have h : traceOf (handleEvent exR [] ["app"] ⟨false, true, false, false⟩ WEvent.unlink
      ["app", "admin", "src", "x.js"] exFS) =
      [WAction.removed ["app", ".cache", "admin", "src", "x.js"]] := by decide
  rw [h]
  simp

/-- C10 witness: the failure injections on concrete delete and modify
events settle without an uncaught throw, with delete and copy failures
logged; and a delete of the manifest override whose regeneration step
fails (the restore having succeeded) settles silently, with no log entry
at all. -/
theorem C10_witness :
    ((WEvent.unlink = WEvent.unlink ∨ (WEvent.unlink : WEvent) = WEvent.unlinkDir) →
        (exR (packageNameOf ["app", "admin", "src", "x.js"])).isSome) ∧
    isOkE (handleEvent exR [] ["app"] ⟨true, true, true, true⟩ WEvent.unlink
      ["app", "admin", "src", "x.js"] exFS) = true ∧
    WAction.logged "An error occured while deleting the file" ∈
      traceOf (handleEvent exR [] ["app"] ⟨true, true, true, true⟩ WEvent.unlink
        ["app", "admin", "src", "x.js"] exFS) ∧
    WAction.logged "copy error" ∈
      traceOf (handleEvent exR [] ["app"] ⟨true, true, true, true⟩ WEvent.change
        ["app", "admin", "src", "x.js"] exFS) ∧
    isOkE (handleEvent exR [] ["app"] ⟨false, false, true, false⟩ WEvent.unlink
      ["app", "admin", "src", "plugins.js"] exFS2) = true ∧
    (∀ m, WAction.logged m ∉
      traceOf (handleEvent exR [] ["app"] ⟨false, false, true, false⟩ WEvent.unlink
        ["app", "admin", "src", "plugins.js"] exFS2)) := by
  have h := C10_watch_failures_contained exR [] ["app"] ⟨true, true, true, true⟩
    WEvent.unlink ["app", "admin", "src", "x.js"] exFS (by intro h; decide)
  have h2 := C10_watch_failures_contained exR [] ["app"] ⟨true, true, true, true⟩
    WEvent.change ["app", "admin", "src", "x.js"] exFS (by intro h2; simp at h2)
  have h3 := C10_watch_failures_contained exR [] ["app"] ⟨false, false, true, false⟩
    WEvent.unlink ["app", "admin", "src", "plugins.js"] exFS2 (by intro h3; decide)
  exact ⟨by intro h4; decide, h.1, h.2.1 rfl (Or.inl rfl), h2.2.2.2 (by simp) rfl,
    h3.1, h3.2.2.1 (Or.inl rfl) rfl⟩

/-! ### C6: when the manifest is regenerated -/

/-- C6 (amended): the watcher regenerates the manifest only on delete
events, and then exactly when the deleted path's fallback source exists in
the installed package (the regeneration sits inside the successful-restore
branch), the restore and the regeneration write do not themselves fail, and
the code's trigger holds: a non-extension path that either is an
unlinkDir whose string form splits on the admin-src marker into exactly one
non-empty piece, or contains "plugins.js" anywhere.  The regenerated
manifest is produced from the plugin list snapshotted when the watcher
started, not from a recomputed one. -/
theorem C6_regen_condition :
    ∀ (R : String → Option FPath) (appPlugins : List String) (dir : FPath)
      (f : FailSpec) (ev : WEvent) (p : FPath) (fs : FS),
      (¬(ev = WEvent.unlink ∨ ev = WEvent.unlinkDir) →
        WAction.regen ∉ traceOf (handleEvent R appPlugins dir f ev p fs)) ∧
      (∀ pkgRoot, (ev = WEvent.unlink ∨ ev = WEvent.unlinkDir) →
        R (packageNameOf p) = some pkgRoot →
        PathDisj (destFolderOf dir p ++ targetPathOf p)
          (pkgRoot ++ ((if isExtensionOf p then ([] : FPath) else ["admin"]) ++
            targetPathOf p)) →
        (WAction.regen ∈ traceOf (handleEvent R appPlugins dir f ev p fs) ↔
          (f.removeFails = false →
            FS.existsPath fs (pkgRoot ++
              ((if isExtensionOf p then ([] : FPath) else ["admin"]) ++
                targetPathOf p)) = true) ∧
          (f.removeFails = true →
            FS.existsPath fs (pkgRoot ++
              ((if isExtensionOf p then ([] : FPath) else ["admin"]) ++
                targetPathOf p)) = true) ∧
          f.restoreFails = false ∧ f.regenFails = false ∧
          regenTrigger (decide (ev = WEvent.unlinkDir)) (isExtensionOf p) p = true)) ∧
      (WAction.regen ∈ traceOf (handleEvent R appPlugins dir f ev p fs) →
        FS.read (fsOf (handleEvent R appPlugins dir f ev p fs) fs)
          (dir ++ [".cache", "admin", "src", "plugins.js"]) =
          some (pluginsJsContent appPlugins)) := by
  intro R appPlugins dir f ev p fs
  by_cases hev : ev = WEvent.unlink ∨ ev = WEvent.unlinkDir
  · cases hR : R (packageNameOf p) with
    | none =>
      have hne : handleEvent R appPlugins dir f ev p fs =
          .error ("Cannot find module " ++ packageNameOf p) := by
        unfold handleEvent
        rw [if_pos hev, hR]
      refine ⟨fun hnd => absurd hev hnd, ?_, ?_⟩
      · intro pkgRoot _ hroot
        exact Option.noConfusion hroot
      · rw [hne]
        intro hmem
        exact absurd hmem (by simp [traceOf])
    | some root =>
      rw [handleEvent_delete hev hR]
      refine ⟨fun hnd => absurd hev hnd, ?_, ?_⟩
      · intro pkgRoot _ hroot hdisj
        injection hroot with hinj
        subst hinj
        by_cases hrm : f.removeFails = true
        · by_cases hex : FS.existsPath fs
              (root ++ ((if isExtensionOf p then ([] : FPath) else ["admin"]) ++
                targetPathOf p)) = true
          · by_cases hrs : f.restoreFails = true
            · simp [hrm, hex, hrs, traceOf]
            · by_cases hrt : regenTrigger (decide (ev = WEvent.unlinkDir))
                  (isExtensionOf p) p = true
              · by_cases hrg : f.regenFails = true
                · simp [hrm, hex, hrs, hrt, hrg, traceOf]
                · simp [hrm, hex, hrs, hrt, hrg, traceOf]
              · simp [hrm, hex, hrs, hrt, traceOf]
          · simp [hrm, hex, traceOf]
        · have hrm' : f.removeFails = false := by
            revert hrm
            cases f.removeFails <;> simp
          have hex2 : FS.existsPath
              (FS.removeTree fs (destFolderOf dir p ++ targetPathOf p))
              (root ++ ((if isExtensionOf p then ([] : FPath) else ["admin"]) ++
                targetPathOf p)) =
              FS.existsPath fs
              (root ++ ((if isExtensionOf p then ([] : FPath) else ["admin"]) ++
                targetPathOf p)) := existsPath_removeTree_of_disj hdisj
          by_cases hex : FS.existsPath fs
              (root ++ ((if isExtensionOf p then ([] : FPath) else ["admin"]) ++
                targetPathOf p)) = true
          · rw [hex] at hex2
            by_cases hrs : f.restoreFails = true
            · simp [hrm', hex2, hex, hrs, traceOf]
            · by_cases hrt : regenTrigger (decide (ev = WEvent.unlinkDir))
                  (isExtensionOf p) p = true
              · by_cases hrg : f.regenFails = true
                · simp [hrm', hex2, hex, hrs, hrt, hrg, traceOf]
                · simp [hrm', hex2, hex, hrs, hrt, hrg, traceOf]
              · simp [hrm', hex2, hex, hrs, hrt, traceOf]
          · have hexf : FS.existsPath fs
                (root ++ ((if isExtensionOf p then ([] : FPath) else ["admin"]) ++
                  targetPathOf p)) = false := by
              revert hex
              cases FS.existsPath fs (root ++
                ((if isExtensionOf p then ([] : FPath) else ["admin"]) ++
                  targetPathOf p)) <;> simp
            rw [hexf] at hex2
            simp [hrm', hex2, hexf, traceOf]
      · by_cases hrm : f.removeFails = true
        · by_cases hex : FS.existsPath fs
              (root ++ ((if isExtensionOf p then ([] : FPath) else ["admin"]) ++
                targetPathOf p)) = true
          · by_cases hrs : f.restoreFails = true
            · simp [hrm, hex, hrs, traceOf]
            · by_cases hrt : regenTrigger (decide (ev = WEvent.unlinkDir))
                  (isExtensionOf p) p = true
              · by_cases hrg : f.regenFails = true
                · simp [hrm, hex, hrs, hrt, hrg, traceOf]
                · intro _
                  simp [hrm, hex, hrs, hrt, hrg, traceOf, fsOf,
                    createPluginsJsFS, FS.read_write]
              · simp [hrm, hex, hrs, hrt, traceOf]
          · simp [hrm, hex, traceOf]
        · by_cases hex : FS.existsPath
              (FS.removeTree fs (destFolderOf dir p ++ targetPathOf p))
              (root ++ ((if isExtensionOf p then ([] : FPath) else ["admin"]) ++
                targetPathOf p)) = true
          · by_cases hrs : f.restoreFails = true
            · simp [hrm, hex, hrs, traceOf]
            · by_cases hrt : regenTrigger (decide (ev = WEvent.unlinkDir))
                  (isExtensionOf p) p = true
              · by_cases hrg : f.regenFails = true
                · simp [hrm, hex, hrs, hrt, hrg, traceOf]
                · intro _
                  simp [hrm, hex, hrs, hrt, hrg, traceOf, fsOf,
                    createPluginsJsFS, FS.read_write]
              · simp [hrm, hex, hrs, hrt, traceOf]
          · simp [hrm, hex, traceOf]
  · have hcp := @handleEvent_copy R appPlugins dir f ev p fs hev
    refine ⟨?_, ?_, ?_⟩
    · intro _
      rw [hcp]
      by_cases hcf : (f.copyFails || !FS.existsPath fs p) = true
      · simp [hcf, traceOf]
      · simp [hcf, traceOf]
    · intro pkgRoot hd
      exact absurd hd hev
    · rw [hcp]
      by_cases hcf : (f.copyFails || !FS.existsPath fs p) = true
      · intro hmem
        rw [hcf] at hmem  -- reduce the if inside hmem
        exact absurd hmem (by simp [traceOf])
      · intro hmem
        exact absurd hmem (by simp [hcf, traceOf])

set_option maxRecDepth 40000 in
/-- C6 counterexample: deleting a file that merely contains "plugins.js"
in its name — neither the entry point, nor the manifest destination, nor an
ancestor of either, on the source or the destination side — still triggers
regeneration; and the regenerated text comes from the watch-start snapshot
plugin list, not from the then-current recomputed set (which is empty here
because the plugin's entry module is gone). -/
theorem C6_counterexample :
    WAction.regen ∈ traceOf (handleEvent exR ["strapi-plugin-users"] ["app"]
      noFail WEvent.unlink ["app", "admin", "src", "foo", "plugins.js"] exFS6) ∧
    (["app", "admin", "src", "foo", "plugins.js"] : FPath).isPrefixOf
      ["app", "admin", "src", "app.js"] = false ∧
    (["app", "admin", "src", "foo", "plugins.js"] : FPath).isPrefixOf
      ["app", "admin", "src", "plugins.js"] = false ∧
    (["app", "admin", "src", "foo", "plugins.js"] : FPath).isPrefixOf
      ["app", ".cache", "admin", "src", "app.js"] = false ∧
    (["app", "admin", "src", "foo", "plugins.js"] : FPath).isPrefixOf
      ["app", ".cache", "admin", "src", "plugins.js"] = false ∧
    FS.read (fsOf (handleEvent exR ["strapi-plugin-users"] ["app"]
        noFail WEvent.unlink ["app", "admin", "src", "foo", "plugins.js"] exFS6) exFS6)
      ["app", ".cache", "admin", "src", "plugins.js"] =
      some (pluginsJsContent ["strapi-plugin-users"]) ∧
    pluginsToCopyE exR exFS6 ["strapi-plugin-users"] = .ok [] ∧
    pluginsJsContent ["strapi-plugin-users"] ≠ pluginsJsContent [] := by
  refine ⟨by decide, by decide, by decide, by decide, by decide, by decide,
    by decide, by decide⟩

/-- C6 witness: deleting the project override of the manifest file itself
(whose fallback exists in the base package) regenerates the manifest. -/
theorem C6_witness :
    exR (packageNameOf ["app", "admin", "src", "plugins.js"]) =
      some ["nm", "strapi-admin"] ∧
    WAction.regen ∈ traceOf (handleEvent exR [] ["app"] noFail WEvent.unlink
      ["app", "admin", "src", "plugins.js"] exFS2) := by
  refine ⟨by decide, ?_⟩
  have h := (C6_regen_condition exR [] ["app"] noFail WEvent.unlink
      ["app", "admin", "src", "plugins.js"] exFS2).2.1
      ["nm", "strapi-admin"] (Or.inl rfl) (by decide) (by decide)
  exact h.mpr (by decide)

/-! ### C9: create/modify events copy to one destination -/

/-- C9 (amended): on a create or modify event for a plain watched file
whose code-derived destination agrees with stripping the watched-root
prefix and re-rooting (which holds whenever the path's own components do
not re-trigger the string matching), the watcher copies the file's current
content to exactly that destination, overwriting unconditionally; every
other path of the tree is untouched and the manifest is not regenerated. -/
theorem C9_copy_exact :
    ∀ (R : String → Option FPath) (appPlugins : List String) (dir p d : FPath)
      (fs : FS) (c : String) (ev : WEvent),
      (ev = WEvent.add ∨ ev = WEvent.change) →
      FS.Wf fs →
      destFolderOf dir p ++ targetPathOf p = d →
      strippedDest dir p = some d →
      FS.read fs p = some c →
      (∀ q, p.isPrefixOf q = true → q ≠ p → FS.read fs q = none) →
      handleEvent R appPlugins dir noFail ev p fs =
        .ok (FS.copyTree fs p d, [WAction.copied p d]) ∧
      FS.read (FS.copyTree fs p d) d = some c ∧
      (∀ q, q ≠ d → FS.read (FS.copyTree fs p d) q = FS.read fs q) ∧
      WAction.regen ∉ traceOf (handleEvent R appPlugins dir noFail ev p fs) := by
  intro R appPlugins dir p d fs c ev hev wf hd hsd hread hplain
  have hnd : ¬(ev = WEvent.unlink ∨ ev = WEvent.unlinkDir) := by
    rcases hev with rfl | rfl <;> simp
  have hex : FS.existsPath fs p = true := by
    rw [FS.existsPath_iff]
    exact ⟨p, by simp [List.isPrefixOf_iff_prefix], by simp [hread]⟩
  have hrun : handleEvent R appPlugins dir noFail ev p fs =
      .ok (FS.copyTree fs p d, [WAction.copied p d]) := by
    rw [handleEvent_copy hnd, hd]
    simp [noFail, hex]
  refine ⟨hrun, ?_, ?_, ?_⟩
  · rw [FS.read_copyTree wf]
    have hdp : d.isPrefixOf d = true := by
      simp [List.isPrefixOf_iff_prefix]
    rw [if_pos hdp]
    simp [hread]
  · intro q hq
    rw [FS.read_copyTree wf]
    by_cases hdq : d.isPrefixOf q = true
    · rw [if_pos hdq]
      have hqd : q = d ++ q.drop d.length := (append_drop_restores hdq).symm
      have hdrop : q.drop d.length ≠ [] := by
        intro hnil
        rw [hnil, List.append_nil] at hqd
        exact hq hqd
      have hne : p ++ q.drop d.length ≠ p := by
        intro hc
        have h0 : p ++ q.drop d.length = p ++ [] := by
          rw [hc, List.append_nil]
        exact hdrop (List.append_cancel_left h0)
      have hp : p.isPrefixOf (p ++ q.drop d.length) = true :=
        List.isPrefixOf_iff_prefix.mpr (List.prefix_append _ _)
      rw [hplain _ hp hne]
      simp
    · rw [if_neg hdq]
  · rw [hrun]
    simp [traceOf]

/-- C9 counterexample: a modify event for a project-override file whose
name begins with "admin" — here admin.css — is copied to a destination cut
mid-name by the split on "\x2fadmin", not to the stripped re-rooted
destination, which ends up without the file's content. -/
theorem C9_counterexample :
    strippedDest ["app"] ["app", "admin", "src", "admin.css"] =
      some ["app", ".cache", "admin", "src", "admin.css"] ∧
    FS.read exFS9 ["app", "admin", "src", "admin.css"] = some "x-style" ∧
    destFolderOf ["app"] ["app", "admin", "src", "admin.css"] ++
      targetPathOf ["app", "admin", "src", "admin.css"] =
      ["app", ".cache", "admin", "src"] ∧
    isOkE (handleEvent exR [] ["app"] noFail WEvent.change
      ["app", "admin", "src", "admin.css"] exFS9) = true ∧
    FS.read (fsOf (handleEvent exR [] ["app"] noFail WEvent.change
        ["app", "admin", "src", "admin.css"] exFS9) exFS9)
      ["app", ".cache", "admin", "src", "admin.css"] = none := by
  refine ⟨by decide, by decide, by decide, by decide, by decide⟩

/-- C9 witness: a clean override file is copied to exactly its stripped
destination and nothing else changes. -/
theorem C9_witness :
    ((WEvent.change = WEvent.add ∨ (WEvent.change : WEvent) = WEvent.change) ∧
     FS.Wf exFS9c ∧
     destFolderOf ["app"] ["app", "admin", "src", "y.js"] ++
       targetPathOf ["app", "admin", "src", "y.js"] =
       ["app", ".cache", "admin", "src", "y.js"] ∧
     strippedDest ["app"] ["app", "admin", "src", "y.js"] =
       some ["app", ".cache", "admin", "src", "y.js"] ∧
     FS.read exFS9c ["app", "admin", "src", "y.js"] = some "c1") ∧
    (handleEvent exR [] ["app"] noFail WEvent.change
        ["app", "admin", "src", "y.js"] exFS9c =
      .ok (FS.copyTree exFS9c ["app", "admin", "src", "y.js"]
          ["app", ".cache", "admin", "src", "y.js"],
        [WAction.copied ["app", "admin", "src", "y.js"]
          ["app", ".cache", "admin", "src", "y.js"]]) ∧
     FS.read (FS.copyTree exFS9c ["app", "admin", "src", "y.js"]
        ["app", ".cache", "admin", "src", "y.js"])
       ["app", ".cache", "admin", "src", "y.js"] = some "c1" ∧
     (∀ q, q ≠ ["app", ".cache", "admin", "src", "y.js"] →
       FS.read (FS.copyTree exFS9c ["app", "admin", "src", "y.js"]
          ["app", ".cache", "admin", "src", "y.js"]) q = FS.read exFS9c q) ∧
     WAction.regen ∉ traceOf (handleEvent exR [] ["app"] noFail WEvent.change
       ["app", "admin", "src", "y.js"] exFS9c)) :=
  ⟨⟨Or.inr rfl, by decide, by decide, by decide, by decide⟩,
    C9_copy_exact exR [] ["app"] ["app", "admin", "src", "y.js"]
      ["app", ".cache", "admin", "src", "y.js"] exFS9c "c1" WEvent.change
      (Or.inr rfl) (by decide) (by decide) (by decide) (by decide)
      (by intro q hpre hne
          have hqp : ¬ (["app", "admin", "src", "y.js"] : FPath) = q :=
            fun h => hne h.symm
          simp [exFS9c, FS.read, hqp])⟩

/-! ### C2: delete events restore the next-lower layer -/

/-- C2 (amended): on a delete event (no environmental failures, resolvable
package name, fallback source disjoint from the destination), the watcher
first removes the destination subtree; afterwards every destination path
holds exactly the content of the same relative path in the next-lower
layer — the base layer for project-override deletions, the plugin's own
installed layer for extension-override deletions — and is absent when the
lower layer lacks it, except that when the deletion also triggers manifest
regeneration the manifest destination ends up holding freshly generated
text instead; paths outside the destination subtree are untouched. -/
theorem C2_delete_fallback :
    ∀ (R : String → Option FPath) (appPlugins : List String) (dir p : FPath)
      (pkgRoot target dest original : FPath) (fs : FS) (ev : WEvent),
      (ev = WEvent.unlink ∨ ev = WEvent.unlinkDir) →
      FS.Wf fs →
      R (packageNameOf p) = some pkgRoot →
      targetPathOf p = target →
      destFolderOf dir p ++ target = dest →
      pkgRoot ++ (if isExtensionOf p then ([] : FPath) else ["admin"]) ++ target =
        original →
      PathDisj dest original →
      ∃ fs' tr, handleEvent R appPlugins dir noFail ev p fs = .ok (fs', tr) ∧
        tr.head? = some (WAction.removed dest) ∧
        (∀ q, FS.read fs' q =
          if regenTrigger (decide (ev = WEvent.unlinkDir)) (isExtensionOf p) p = true ∧
              FS.existsPath fs original = true ∧
              q = dir ++ [".cache", "admin", "src", "plugins.js"] then
            some (pluginsJsContent appPlugins)
          else if dest.isPrefixOf q then
            FS.read fs (original ++ q.drop dest.length)
          else FS.read fs q) := by
  intro R appPlugins dir p pkgRoot target dest original fs ev
    hev wf hroot htarget hdest horig hdisj
  subst htarget
  subst hdest
  subst horig
  have hfs2 : ∀ q,
      FS.read (FS.copyTree
        (FS.removeTree fs (destFolderOf dir p ++ targetPathOf p))
        (pkgRoot ++ (if isExtensionOf p then ([] : FPath) else ["admin"]) ++
          targetPathOf p)
        (destFolderOf dir p ++ targetPathOf p)) q =
      if (destFolderOf dir p ++ targetPathOf p).isPrefixOf q then
        FS.read fs (pkgRoot ++ (if isExtensionOf p then ([] : FPath) else ["admin"]) ++
          targetPathOf p ++ q.drop (destFolderOf dir p ++ targetPathOf p).length)
      else FS.read fs q := by
    intro q
    rw [FS.read_copyTree (wf.removeTree _)]
    by_cases hdq : (destFolderOf dir p ++ targetPathOf p).isPrefixOf q = true
    · rw [if_pos hdq, if_pos hdq]
      have hpre : (pkgRoot ++ (if isExtensionOf p then ([] : FPath) else ["admin"]) ++
          targetPathOf p).isPrefixOf
          (pkgRoot ++ (if isExtensionOf p then ([] : FPath) else ["admin"]) ++
            targetPathOf p ++ q.drop (destFolderOf dir p ++ targetPathOf p).length) =
          true :=
        List.isPrefixOf_iff_prefix.mpr (List.prefix_append _ _)
      rw [read_removeTree_of_disj hdisj hpre]
      have h2 : FS.read (FS.removeTree fs (destFolderOf dir p ++ targetPathOf p)) q =
          none := by
        rw [FS.read_removeTree, if_pos hdq]
      rw [h2, pick_none_right]
    · rw [if_neg hdq, if_neg hdq, FS.read_removeTree, if_neg hdq]
  have hexeq : FS.existsPath
      (FS.removeTree fs (destFolderOf dir p ++ targetPathOf p))
      (pkgRoot ++ (if isExtensionOf p then ([] : FPath) else ["admin"]) ++
        targetPathOf p) =
      FS.existsPath fs
      (pkgRoot ++ (if isExtensionOf p then ([] : FPath) else ["admin"]) ++
        targetPathOf p) := existsPath_removeTree_of_disj hdisj
  rw [handleEvent_delete hev hroot]
  by_cases hex : FS.existsPath fs
      (pkgRoot ++ (if isExtensionOf p then ([] : FPath) else ["admin"]) ++
        targetPathOf p) = true
  · rw [hex] at hexeq
    have hexeq2 : FS.existsPath
        (FS.removeTree fs (destFolderOf dir p ++ targetPathOf p))
        (pkgRoot ++ ((if isExtensionOf p then ([] : FPath) else ["admin"]) ++
          targetPathOf p)) = true := by
      rw [← List.append_assoc]
      exact hexeq
    by_cases hrt : regenTrigger (decide (ev = WEvent.unlinkDir)) (isExtensionOf p) p = true
    · refine ⟨createPluginsJsFS appPlugins (dir ++ [".cache"])
          (FS.copyTree (FS.removeTree fs (destFolderOf dir p ++ targetPathOf p))
            (pkgRoot ++ (if isExtensionOf p then ([] : FPath) else ["admin"]) ++
              targetPathOf p)
            (destFolderOf dir p ++ targetPathOf p)),
        [WAction.removed (destFolderOf dir p ++ targetPathOf p),
          WAction.restored
            (pkgRoot ++ (if isExtensionOf p then ([] : FPath) else ["admin"]) ++
              targetPathOf p)
            (destFolderOf dir p ++ targetPathOf p),
          WAction.regen], ?_, by simp, ?_⟩
      · simp [noFail, hexeq2, hrt]
      · intro q
        unfold createPluginsJsFS
        rw [FS.read_write]
        by_cases hq : q = dir ++ [".cache"] ++ ["admin", "src", "plugins.js"]
        · rw [if_pos hq]
          have hq2 : q = dir ++ [".cache", "admin", "src", "plugins.js"] := by
            rw [hq]
            simp
          rw [if_pos ⟨hrt, hex, hq2⟩]
        · rw [if_neg hq]
          have hq2 : ¬(regenTrigger (decide (ev = WEvent.unlinkDir)) (isExtensionOf p) p =
              true ∧ FS.existsPath fs
                (pkgRoot ++ (if isExtensionOf p then ([] : FPath) else ["admin"]) ++
                  targetPathOf p) = true ∧
              q = dir ++ [".cache", "admin", "src", "plugins.js"]) := by
            rintro ⟨-, -, hqq⟩
            apply hq
            rw [hqq]
            simp
          rw [if_neg hq2]
          exact hfs2 q
    · refine ⟨FS.copyTree (FS.removeTree fs (destFolderOf dir p ++ targetPathOf p))
          (pkgRoot ++ (if isExtensionOf p then ([] : FPath) else ["admin"]) ++
            targetPathOf p)
          (destFolderOf dir p ++ targetPathOf p),
        [WAction.removed (destFolderOf dir p ++ targetPathOf p),
          WAction.restored
            (pkgRoot ++ (if isExtensionOf p then ([] : FPath) else ["admin"]) ++
              targetPathOf p)
            (destFolderOf dir p ++ targetPathOf p)], ?_, by simp, ?_⟩
      · simp [noFail, hexeq2, hrt]
      · intro q
        have hq2 : ¬(regenTrigger (decide (ev = WEvent.unlinkDir)) (isExtensionOf p) p =
            true ∧ FS.existsPath fs
              (pkgRoot ++ (if isExtensionOf p then ([] : FPath) else ["admin"]) ++
                targetPathOf p) = true ∧
            q = dir ++ [".cache", "admin", "src", "plugins.js"]) := by
          rintro ⟨hc, -, -⟩
          exact hrt hc
        rw [if_neg hq2]
        exact hfs2 q
  · have hexf : FS.existsPath fs
        (pkgRoot ++ (if isExtensionOf p then ([] : FPath) else ["admin"]) ++
          targetPathOf p) = false := by
      revert hex
      cases FS.existsPath fs
        (pkgRoot ++ (if isExtensionOf p then ([] : FPath) else ["admin"]) ++
          targetPathOf p) <;> simp
    rw [hexf] at hexeq
    have hexeq2 : FS.existsPath
        (FS.removeTree fs (destFolderOf dir p ++ targetPathOf p))
        (pkgRoot ++ ((if isExtensionOf p then ([] : FPath) else ["admin"]) ++
          targetPathOf p)) = false := by
      rw [← List.append_assoc]
      exact hexeq
    refine ⟨FS.removeTree fs (destFolderOf dir p ++ targetPathOf p),
      [WAction.removed (destFolderOf dir p ++ targetPathOf p)], ?_, by simp, ?_⟩
    · simp [noFail, hexeq2]
    · intro q
      have hq2 : ¬(regenTrigger (decide (ev = WEvent.unlinkDir)) (isExtensionOf p) p =
          true ∧ FS.existsPath fs
            (pkgRoot ++ (if isExtensionOf p then ([] : FPath) else ["admin"]) ++
              targetPathOf p) = true ∧
          q = dir ++ [".cache", "admin", "src", "plugins.js"]) := by
        rintro ⟨-, hc, -⟩
        rw [hexf] at hc
        exact absurd hc (by simp)
      rw [if_neg hq2, FS.read_removeTree]
      by_cases hdq : (destFolderOf dir p ++ targetPathOf p).isPrefixOf q = true
      · rw [if_pos hdq, if_pos hdq]
        exact (FS.read_none_of_not_existsPath hexf _).symm
      · rw [if_neg hdq, if_neg hdq]

set_option maxRecDepth 40000 in
/-- C2 counterexample: deleting the project override of the manifest file
while the base package still ships one does not leave the base layer's
content at the destination — the triggered regeneration overwrites it with
freshly generated text. -/
theorem C2_counterexample :
    FS.read exFS2 ["nm", "strapi-admin", "admin", "src", "plugins.js"] =
      some "base-manifest" ∧
    FS.read (fsOf (handleEvent exR0 [] ["app"] noFail WEvent.unlink
        ["app", "admin", "src", "plugins.js"] exFS2) exFS2)
      ["app", ".cache", "admin", "src", "plugins.js"] =
      some (pluginsJsContent []) ∧
    pluginsJsContent [] ≠ "base-manifest" := by
  refine ⟨by decide, by decide, by decide⟩

/-- C2 witness: deleting an override whose fallback exists in the base
layer removes the destination and restores exactly the base content there,
leaving all other paths alone. -/
theorem C2_witness :
    ((WEvent.unlink = WEvent.unlink ∨ (WEvent.unlink : WEvent) = WEvent.unlinkDir) ∧
     FS.Wf exFS ∧
     exR (packageNameOf ["app", "admin", "src", "x.js"]) = some ["nm", "strapi-admin"] ∧
     targetPathOf ["app", "admin", "src", "x.js"] = ["src", "x.js"] ∧
     destFolderOf ["app"] ["app", "admin", "src", "x.js"] ++ ["src", "x.js"] =
       ["app", ".cache", "admin", "src", "x.js"] ∧
     ["nm", "strapi-admin"] ++
       (if isExtensionOf ["app", "admin", "src", "x.js"] then ([] : FPath)
        else ["admin"]) ++ ["src", "x.js"] =
       ["nm", "strapi-admin", "admin", "src", "x.js"] ∧
     PathDisj ["app", ".cache", "admin", "src", "x.js"]
       ["nm", "strapi-admin", "admin", "src", "x.js"]) ∧
    (∃ fs' tr, handleEvent exR [] ["app"] noFail WEvent.unlink
        ["app", "admin", "src", "x.js"] exFS = .ok (fs', tr) ∧
      tr.head? = some (WAction.removed ["app", ".cache", "admin", "src", "x.js"]) ∧
      (∀ q, FS.read fs' q =
        if regenTrigger (decide ((WEvent.unlink : WEvent) = WEvent.unlinkDir))
              (isExtensionOf ["app", "admin", "src", "x.js"])
              ["app", "admin", "src", "x.js"] = true ∧
            FS.existsPath exFS ["nm", "strapi-admin", "admin", "src", "x.js"] = true ∧
            q = ["app"] ++ [".cache", "admin", "src", "plugins.js"] then
          some (pluginsJsContent [])
        else if (["app", ".cache", "admin", "src", "x.js"] : FPath).isPrefixOf q then
          FS.read exFS (["nm", "strapi-admin", "admin", "src", "x.js"] ++
            q.drop (["app", ".cache", "admin", "src", "x.js"] : FPath).length)
        else FS.read exFS q)) :=
  ⟨⟨Or.inl rfl, by decide, by decide, by decide, by decide, by decide, by decide⟩,
    C2_delete_fallback exR [] ["app"] ["app", "admin", "src", "x.js"]
      ["nm", "strapi-admin"] ["src", "x.js"] ["app", ".cache", "admin", "src", "x.js"]
      ["nm", "strapi-admin", "admin", "src", "x.js"] exFS WEvent.unlink
      (Or.inl rfl) (by decide) (by decide) (by decide) (by decide) (by decide)
      (by decide)⟩

/-! ### Materialization characterization: prefix and frame infrastructure -/

theorem not_prefix_of_bool_false {a b : FPath} (h : a.isPrefixOf b = false) :
    ¬ a <+: b := by
  intro hc
  rw [List.isPrefixOf_iff_prefix.mpr hc] at h
  exact Bool.noConfusion h

theorem not_prefix_to_bool {a b : FPath} (h : ¬ a <+: b) :
    a.isPrefixOf b = false := by
  cases hb : a.isPrefixOf b
  · rfl
  · exact absurd (List.isPrefixOf_iff_prefix.mp hb) h

theorem PathDisj.symm {a b : FPath} (h : PathDisj a b) : PathDisj b a :=
  ⟨h.2, h.1⟩

/-- Extending one side of a disjoint pair keeps it out of the other's
subtree. -/
theorem pathDisj_extend_right {a b : FPath} (h : PathDisj a b) (sub : FPath) :
    PathDisj b (a ++ sub) := by
  constructor
  · exact not_prefix_to_bool
      (not_prefix_of_incomp sub (not_prefix_of_bool_false h.2)
        (not_prefix_of_bool_false h.1))
  · apply not_prefix_to_bool
    intro hc
    exact not_prefix_of_bool_false h.1 ((List.prefix_append a sub).trans hc)

/-- The cache directory is disjoint from every sibling directory of the
project root. -/
theorem pathDisj_cache_sibling {dir : FPath} {a : String} (ha : a ≠ ".cache")
    (r : FPath) : PathDisj (dir ++ [".cache"]) (dir ++ a :: r) := by
  constructor
  · exact not_prefix_to_bool
      (singleton_component_incomparable (fun h => ha h.symm) [] r)
  · exact not_prefix_to_bool (singleton_component_incomparable ha r [])

theorem bool_prefix_append_cancel (a t1 t2 : FPath) :
    (a ++ t1).isPrefixOf (a ++ t2) = t1.isPrefixOf t2 := by
  by_cases h : t1 <+: t2
  · rw [List.isPrefixOf_iff_prefix.mpr h,
      List.isPrefixOf_iff_prefix.mpr ((List.prefix_append_right_inj a).mpr h)]
  · rw [not_prefix_to_bool h, not_prefix_to_bool
      (fun hc => h ((List.prefix_append_right_inj a).mp hc))]

theorem drop_append_cancel (a t rel : FPath) :
    (a ++ rel).drop (a ++ t).length = rel.drop t.length := by
  rw [List.length_append, ← List.drop_drop, List.drop_left]

/-- Two paths that extend the same base with different components never
cover a common path. -/
theorem component_eq_of_prefixes {base : FPath} {a b : String} {l1 l2 rel : FPath}
    (h1 : (base ++ a :: l1).isPrefixOf rel = true)
    (h2 : (base ++ b :: l2).isPrefixOf rel = true) : a = b := by
  rcases prefix_total (List.isPrefixOf_iff_prefix.mp h1)
      (List.isPrefixOf_iff_prefix.mp h2) with hc | hc
  · by_contra hab
    exact singleton_component_incomparable hab l1 l2 hc
  · by_contra hab
    exact singleton_component_incomparable (fun h => hab h.symm) l2 l1 hc

theorem singleton_prefix_to_cons {a : String} {rel : FPath}
    (h : ([a] : FPath).isPrefixOf rel = true) : rel = a :: rel.drop 1 := by
  rcases List.isPrefixOf_iff_prefix.mp h with ⟨t, ht⟩
  rw [← ht]
  rfl

/-- A copy targeted inside the cache, read at a cache path: the copied
source wins where the destination subtree covers the path. -/
theorem read_copyTree_cache {g : FS} (wf : FS.Wf g) (C src t rel : FPath) :
    FS.read (FS.copyTree g src (C ++ t)) (C ++ rel) =
      if t.isPrefixOf rel then
        pick (FS.read g (src ++ rel.drop t.length)) (FS.read g (C ++ rel))
      else FS.read g (C ++ rel) := by
  rw [FS.read_copyTree wf, bool_prefix_append_cancel, drop_append_cancel]

/-- A copy targeted inside the cache leaves every non-cache path alone. -/
theorem read_copyTree_outside {g : FS} (wf : FS.Wf g) {C : FPath} (src t : FPath)
    {q : FPath} (hq : C.isPrefixOf q = false) :
    FS.read (FS.copyTree g src (C ++ t)) q = FS.read g q := by
  rw [FS.read_copyTree wf]
  have h : (C ++ t).isPrefixOf q = false := by
    apply not_prefix_to_bool
    intro hc
    exact not_prefix_of_bool_false hq ((List.prefix_append C t).trans hc)
  simp [h]

/-- Two trees agreeing outside the cache read equally below any path
disjoint from the cache. -/
theorem read_eq_of_outside {g1 g2 : FS} {C o : FPath} (hd : PathDisj C o)
    (h : ∀ q, C.isPrefixOf q = false → FS.read g1 q = FS.read g2 q) (r : FPath) :
    FS.read g1 (o ++ r) = FS.read g2 (o ++ r) := by
  apply h
  exact not_prefix_of_pathDisj_left hd
    (List.isPrefixOf_iff_prefix.mpr (List.prefix_append o r))

theorem existsPath_eq_of_outside {g1 g2 : FS} {C o : FPath} (hd : PathDisj C o)
    (h : ∀ q, C.isPrefixOf q = false → FS.read g1 q = FS.read g2 q) :
    FS.existsPath g1 o = FS.existsPath g2 o := by
  apply FS.existsPath_congr
  intro q hq
  exact h q (not_prefix_of_pathDisj_left hd hq)

theorem list_all_congr {α : Type} {f h : α → Bool} :
    ∀ (P : List α), (∀ x ∈ P, f x = h x) → P.all f = P.all h := by
  intro P
  induction P with
  | nil => intro _; rfl
  | cons p rest ih =>
    intro hp
    simp only [List.all_cons]
    rw [hp p (List.mem_cons_self p rest), ih (fun x hx => hp x (List.mem_cons_of_mem p hx))]

/-! ### Layer reads are stable under cache-only modification -/

theorem baseLayerContent_congr {g1 g2 : FS} {C ar : FPath} (hd : PathDisj C ar)
    (h : ∀ q, C.isPrefixOf q = false → FS.read g1 q = FS.read g2 q) (rel : FPath) :
    baseLayerContent ar g1 rel = baseLayerContent ar g2 rel := by
  unfold baseLayerContent
  split
  · exact read_eq_of_outside hd h rel
  · rfl

theorem pluginLayerContent_congr {R : String → Option FPath} {g1 g2 : FS}
    {C : FPath} (hsep : SepEnv R C)
    (h : ∀ q, C.isPrefixOf q = false → FS.read g1 q = FS.read g2 q)
    (p : String) (rel : FPath) :
    pluginLayerContent R g1 p rel = pluginLayerContent R g2 p rel := by
  unfold pluginLayerContent
  split
  · cases hr : R p with
    | none => rfl
    | some root => exact read_eq_of_outside (hsep p root hr).symm h _
  · rfl

theorem projLayerContent_congr {g1 g2 : FS} {dir : FPath}
    (h : ∀ q, (dir ++ [".cache"]).isPrefixOf q = false →
      FS.read g1 q = FS.read g2 q) (rel : FPath) :
    projLayerContent dir g1 rel = projLayerContent dir g2 rel := by
  unfold projLayerContent
  split
  next hgate =>
    have hrel := singleton_prefix_to_cons hgate
    apply h
    rw [hrel]
    exact not_prefix_to_bool
      (singleton_component_incomparable (by decide) [] (rel.drop 1))
  next => rfl

theorem extLayerContent_congr {g1 g2 : FS} {dir : FPath}
    (h : ∀ q, (dir ++ [".cache"]).isPrefixOf q = false →
      FS.read g1 q = FS.read g2 q) (p : String) (rel : FPath) :
    extLayerContent dir g1 p rel = extLayerContent dir g2 p rel := by
  unfold extLayerContent
  split
  · apply h
    have hshape : dir ++ ["extensions", stripPluginPrefix p] ++ rel.drop 2 =
        dir ++ "extensions" :: stripPluginPrefix p :: rel.drop 2 := by simp
    rw [hshape]
    exact not_prefix_to_bool
      (singleton_component_incomparable (by decide) [] _)
  · rfl

theorem hasAdminEntryE_congr {R : String → Option FPath} {C : FPath}
    {g1 g2 : FS} (hsep : SepEnv R C)
    (h : ∀ q, C.isPrefixOf q = false → FS.read g1 q = FS.read g2 q) (d : String) :
    hasAdminEntryE R g1 d = hasAdminEntryE R g2 d := by
  unfold hasAdminEntryE
  split
  · cases hr : R d with
    | none => simp [getPkgPath, hr, bind, Except.bind]
    | some root =>
      simp only [getPkgPath, hr, bind, Except.bind]
      rw [existsPath_eq_of_outside (pathDisj_extend_right (hsep d root hr)
        ["admin", "src", "index.js"]) h]
  · rfl

theorem pluginsToCopyE_congr {R : String → Option FPath} {C : FPath}
    {g1 g2 : FS} (hsep : SepEnv R C)
    (h : ∀ q, C.isPrefixOf q = false → FS.read g1 q = FS.read g2 q) :
    ∀ deps, pluginsToCopyE R g1 deps = pluginsToCopyE R g2 deps := by
  intro deps
  induction deps with
  | nil => rfl
  | cons d rest ih =>
    unfold pluginsToCopyE
    rw [show (do
        let keep ← hasAdminEntryE R g1 d
        let tail ← pluginsToCopyE R g1 rest
        pure (if keep then d :: tail else tail) : Except String (List String)) = (do
        let keep ← hasAdminEntryE R g2 d
        let tail ← pluginsToCopyE R g2 rest
        pure (if keep then d :: tail else tail)) from by
      rw [hasAdminEntryE_congr hsep h d, ih]]

theorem mergedContent_congr {R : String → Option FPath} {g1 g2 : FS}
    {dir ar : FPath} {P : List String}
    (hsep : SepEnv R (dir ++ [".cache"])) (hd_ar : PathDisj (dir ++ [".cache"]) ar)
    (h : ∀ q, (dir ++ [".cache"]).isPrefixOf q = false →
      FS.read g1 q = FS.read g2 q) (rel : FPath) :
    mergedContent R g1 dir ar P rel = mergedContent R g2 dir ar P rel := by
  unfold mergedContent
  rw [baseLayerContent_congr hd_ar h rel,
    show (fun acc p => pick (pluginLayerContent R g1 p rel) acc) =
      (fun acc p => pick (pluginLayerContent R g2 p rel) acc) from
      funext (fun acc => funext (fun p => by
        rw [pluginLayerContent_congr hsep h p rel])),
    projLayerContent_congr h rel,
    show (fun acc p => pick (extLayerContent dir g1 p rel) acc) =
      (fun acc p => pick (extLayerContent dir g2 p rel) acc) from
      funext (fun acc => funext (fun p => by
        rw [extLayerContent_congr h p rel]))]

/-! ### The manifest write and the override bookkeeping -/

theorem read_createPluginsJsFS_outside {P : List String} {C : FPath} {g : FS}
    {q : FPath} (hq : C.isPrefixOf q = false) :
    FS.read (createPluginsJsFS P C g) q = FS.read g q := by
  unfold createPluginsJsFS
  rw [FS.read_write]
  have hne : ¬ q = C ++ ["admin", "src", "plugins.js"] := by
    intro hc
    have : C.isPrefixOf q = true := by
      rw [hc]
      exact List.isPrefixOf_iff_prefix.mpr (List.prefix_append _ _)
    rw [this] at hq
    exact Bool.noConfusion hq
  simp [hne]

theorem read_createPluginsJsFS_inside (P : List String) (C : FPath) (g : FS)
    (rel : FPath) :
    FS.read (createPluginsJsFS P C g) (C ++ rel) =
      if rel = ["admin", "src", "plugins.js"] then some (pluginsJsContent P)
      else FS.read g (C ++ rel) := by
  unfold createPluginsJsFS
  rw [FS.read_write]
  by_cases hrel : rel = ["admin", "src", "plugins.js"]
  · rw [if_pos hrel, if_pos (by rw [hrel])]
  · rw [if_neg hrel, if_neg (fun hc => hrel (List.append_cancel_left hc))]

theorem pluginsToOverride_go (P : List String) (dir : FPath) (g : FS) :
    ∀ acc : List String,
    P.foldl (fun acc current =>
      let pluginName := stripPluginPrefix current
      if FS.existsPath g (dir ++ ["extensions", pluginName, "admin"]) then
        acc ++ [pluginName]
      else acc) acc =
    acc ++ (P.filter (fun p =>
      FS.existsPath g (dir ++ ["extensions", stripPluginPrefix p, "admin"]))).map
        stripPluginPrefix := by
  induction P with
  | nil => intro acc; simp
  | cons p rest ih =>
    intro acc
    by_cases hp : FS.existsPath g (dir ++ ["extensions", stripPluginPrefix p, "admin"]) = true
    · rw [List.foldl_cons]
      simp only [hp, if_true]
      rw [ih, List.filter_cons]
      simp [hp]
    · have hp2 : FS.existsPath g (dir ++ ["extensions", stripPluginPrefix p, "admin"]) =
          false := Bool.eq_false_iff.mpr hp
      rw [List.foldl_cons]
      simp only [hp2, Bool.false_eq_true, if_false]
      rw [ih, List.filter_cons]
      simp [hp2]

/-- The reduce of lines 121-129 keeps, in order, the short names of the
copied plugins whose extension-override directory exists. -/
theorem pluginsToOverride_eq (P : List String) (dir : FPath) (g : FS) :
    pluginsToOverride P dir g =
      (P.filter (fun p =>
        FS.existsPath g (dir ++ ["extensions", stripPluginPrefix p, "admin"]))).map
          stripPluginPrefix := by
  unfold pluginsToOverride
  rw [pluginsToOverride_go]
  rfl

/-- Folding picks over the filtered list equals folding over the whole
list when the dropped elements contribute nothing. -/
theorem foldl_pick_filter {α : Type} {cond : String → Bool} {F : String → Option α} :
    ∀ (P : List String), (∀ p ∈ P, cond p = false → F p = none) →
    ∀ a : Option α,
    (P.filter cond).foldl (fun acc p => pick (F p) acc) a =
      P.foldl (fun acc p => pick (F p) acc) a := by
  intro P
  induction P with
  | nil => intro _ a; rfl
  | cons p rest ih =>
    intro hnone a
    by_cases hp : cond p = true
    · rw [List.filter_cons_of_pos hp, List.foldl_cons, List.foldl_cons]
      exact ih (fun q hq => hnone q (List.mem_cons_of_mem p hq)) _
    · rw [List.filter_cons_of_neg hp, List.foldl_cons]
      have hzero : F p = none :=
        hnone p (List.mem_cons_self p rest) (Bool.eq_false_iff.mpr hp)
      rw [hzero]
      exact ih (fun q hq => hnone q (List.mem_cons_of_mem p hq)) a

/-! ### Per-step read characterizations of the materialization pipeline -/

/-- copyAdmin lays down the base layer inside the cache and touches nothing
else. -/
theorem copyAdmin_spec {R : String → Option FPath} {ar C : FPath} {g g2 : FS}
    (wf : FS.Wf g) (har : R "strapi-admin" = some ar) (hd : PathDisj ar C)
    (h : copyAdmin R C g = .ok g2) :
    FS.Wf g2 ∧
    (∀ q, C.isPrefixOf q = false → FS.read g2 q = FS.read g q) ∧
    (∀ rel, FS.read g2 (C ++ rel) =
      pick (baseLayerContent ar g rel) (FS.read g (C ++ rel))) := by
  have hsrc : ∀ s t : FPath, C.isPrefixOf (ar ++ s ++ t) = false := by
    intro s t
    rw [List.append_assoc]
    exact (pathDisj_extend_right hd (s ++ t)).1
  simp only [copyAdmin, getPkgPath, har, bind, Except.bind] at h
  cases hex1 : FS.existsPath g (ar ++ ["admin"]) with
  | false => simp [FS.copyE, hex1] at h
  | true =>
    simp only [FS.copyE, hex1, if_true] at h
    cases hex2 : FS.existsPath (FS.copyTree g (ar ++ ["admin"]) (C ++ ["admin"]))
        (ar ++ ["config", "layout.js"]) with
    | false => simp [hex2] at h
    | true =>
      simp only [hex2, if_true, Except.ok.injEq] at h
      subst h
      have wfA : FS.Wf (FS.copyTree g (ar ++ ["admin"]) (C ++ ["admin"])) :=
        wf.copyTree _ _
      refine ⟨wfA.copyTree _ _, ?_, ?_⟩
      · intro q hq
        rw [read_copyTree_outside wfA (ar ++ ["config", "layout.js"])
            ["config", "layout.js"] hq,
          read_copyTree_outside wf (ar ++ ["admin"]) ["admin"] hq]
      · intro rel
        rw [read_copyTree_cache wfA C (ar ++ ["config", "layout.js"])
            ["config", "layout.js"] rel,
          read_copyTree_outside wf (ar ++ ["admin"]) ["admin"]
            (hsrc ["config", "layout.js"] _),
          read_copyTree_cache wf C (ar ++ ["admin"]) ["admin"] rel]
        unfold baseLayerContent
        cases hA : (["admin"] : FPath).isPrefixOf rel with
        | true =>
          cases hL : (["config", "layout.js"] : FPath).isPrefixOf rel with
          | true =>
            exact absurd (@component_eq_of_prefixes [] "admin" "config" []
              ["layout.js"] rel hA hL) (by decide)
          | false =>
            have heq1 : ar ++ ["admin"] ++ rel.drop (["admin"] : FPath).length =
                ar ++ rel := by
              rw [List.append_assoc, append_drop_restores hA]
            simp only [hA, hL, Bool.false_eq_true, Bool.true_or, if_true, if_false,
              ite_true, ite_false, heq1]
        | false =>
          cases hL : (["config", "layout.js"] : FPath).isPrefixOf rel with
          | true =>
            have heq2 : ar ++ ["config", "layout.js"] ++
                rel.drop (["config", "layout.js"] : FPath).length = ar ++ rel := by
              rw [List.append_assoc, append_drop_restores hL]
            simp only [hA, hL, Bool.false_eq_true, Bool.false_or, if_true, if_false,
              ite_true, ite_false, heq2]
          | false =>
            simp only [hA, hL, Bool.false_eq_true, Bool.false_or, if_false,
              ite_false]
            rfl

/-- copyPlugin lays down one plugin layer inside the cache and touches
nothing else. -/
theorem copyPlugin_spec {R : String → Option FPath} {C : FPath} {n : String}
    {root : FPath} {g g2 : FS}
    (wf : FS.Wf g) (hr : R n = some root) (hd : PathDisj root C)
    (h : copyPlugin R n C g = .ok g2) :
    FS.Wf g2 ∧
    (∀ q, C.isPrefixOf q = false → FS.read g2 q = FS.read g q) ∧
    (∀ rel, FS.read g2 (C ++ rel) =
      pick (pluginLayerContent R g n rel) (FS.read g (C ++ rel))) := by
  have hsrc : ∀ s t : FPath, C.isPrefixOf (root ++ s ++ t) = false := by
    intro s t
    rw [List.append_assoc]
    exact (pathDisj_extend_right hd (s ++ t)).1
  simp only [copyPlugin, getPkgPath, hr, bind, Except.bind] at h
  cases hex1 : FS.existsPath g (root ++ ["admin"]) with
  | false => simp [FS.copyE, hex1] at h
  | true =>
    simp only [FS.copyE, hex1, if_true] at h
    have wfA : FS.Wf (FS.copyTree g (root ++ ["admin"]) (C ++ ["plugins", n, "admin"])) :=
      wf.copyTree _ _
    have houtA : ∀ q, C.isPrefixOf q = false →
        FS.read (FS.copyTree g (root ++ ["admin"]) (C ++ ["plugins", n, "admin"])) q =
        FS.read g q :=
      fun q hq => read_copyTree_outside wf (root ++ ["admin"]) ["plugins", n, "admin"] hq
    cases hex2 : FS.existsPath
        (FS.copyTree g (root ++ ["admin"]) (C ++ ["plugins", n, "admin"]))
        (root ++ ["config", "layout.js"]) with
    | true =>
      simp only [hex2, if_true] at h
      cases hex3 : FS.existsPath
          (FS.copyTree
            (FS.copyTree g (root ++ ["admin"]) (C ++ ["plugins", n, "admin"]))
            (root ++ ["config", "layout.js"])
            (C ++ ["plugins", n, "config", "layout.js"]))
          (root ++ ["package.json"]) with
      | false => simp [hex3] at h
      | true =>
        simp only [hex3, if_true, Except.ok.injEq] at h
        subst h
        have wfB : FS.Wf (FS.copyTree
            (FS.copyTree g (root ++ ["admin"]) (C ++ ["plugins", n, "admin"]))
            (root ++ ["config", "layout.js"])
            (C ++ ["plugins", n, "config", "layout.js"])) := wfA.copyTree _ _
        refine ⟨wfB.copyTree _ _, ?_, ?_⟩
        · intro q hq
          rw [read_copyTree_outside wfB (root ++ ["package.json"])
              ["plugins", n, "package.json"] hq,
            read_copyTree_outside wfA (root ++ ["config", "layout.js"])
              ["plugins", n, "config", "layout.js"] hq,
            houtA q hq]
        · intro rel
          rw [read_copyTree_cache wfB C (root ++ ["package.json"])
              ["plugins", n, "package.json"] rel,
            read_copyTree_outside wfA (root ++ ["config", "layout.js"])
              ["plugins", n, "config", "layout.js"] (hsrc ["package.json"] _),
            houtA _ (hsrc ["package.json"] _),
            read_copyTree_cache wfA C (root ++ ["config", "layout.js"])
              ["plugins", n, "config", "layout.js"] rel,
            houtA _ (hsrc ["config", "layout.js"] _),
            read_copyTree_cache wf C (root ++ ["admin"]) ["plugins", n, "admin"] rel]
          unfold pluginLayerContent
          simp only [hr]
          cases hA : (["plugins", n, "admin"] : FPath).isPrefixOf rel with
          | true =>
            cases hL : (["plugins", n, "config", "layout.js"] : FPath).isPrefixOf rel with
            | true =>
              exact absurd (@component_eq_of_prefixes ["plugins", n] "admin" "config"
                [] ["layout.js"] rel hA hL) (by decide)
            | false =>
              cases hK : (["plugins", n, "package.json"] : FPath).isPrefixOf rel with
              | true =>
                exact absurd (@component_eq_of_prefixes ["plugins", n] "admin"
                  "package.json" [] [] rel hA hK) (by decide)
              | false =>
                have hshape : root ++ ["admin"] ++
                    rel.drop (["plugins", n, "admin"] : FPath).length =
                    root ++ rel.drop 2 := by
                  rw [List.append_assoc]
                  conv_rhs => rw [← append_drop_restores hA]
                  rfl
                simp only [hA, hL, hK, Bool.false_eq_true, Bool.true_or, Bool.false_or,
                  if_true, if_false, ite_true, ite_false, hshape]
          | false =>
            cases hL : (["plugins", n, "config", "layout.js"] : FPath).isPrefixOf rel with
            | true =>
              cases hK : (["plugins", n, "package.json"] : FPath).isPrefixOf rel with
              | true =>
                exact absurd (@component_eq_of_prefixes ["plugins", n] "config"
                  "package.json" ["layout.js"] [] rel hL hK) (by decide)
              | false =>
                have hshape : root ++ ["config", "layout.js"] ++
                    rel.drop (["plugins", n, "config", "layout.js"] : FPath).length =
                    root ++ rel.drop 2 := by
                  rw [List.append_assoc]
                  conv_rhs => rw [← append_drop_restores hL]
                  rfl
                simp only [hA, hL, hK, Bool.false_eq_true, Bool.true_or, Bool.false_or,
                  if_true, if_false, ite_true, ite_false, hshape]
            | false =>
              cases hK : (["plugins", n, "package.json"] : FPath).isPrefixOf rel with
              | true =>
                have hshape : root ++ ["package.json"] ++
                    rel.drop (["plugins", n, "package.json"] : FPath).length =
                    root ++ rel.drop 2 := by
                  rw [List.append_assoc]
                  conv_rhs => rw [← append_drop_restores hK]
                  rfl
                simp only [hA, hL, hK, Bool.false_eq_true, Bool.true_or, Bool.false_or,
                  if_true, if_false, ite_true, ite_false, hshape]
              | false =>
                simp only [hA, hL, hK, Bool.false_eq_true, Bool.false_or, if_false,
                  ite_false]
                rfl
    | false =>
      simp only [hex2, Bool.false_eq_true, if_false, pure, Except.pure] at h
      have hex2g : FS.existsPath g (root ++ ["config", "layout.js"]) = false := by
        rw [← existsPath_eq_of_outside
          (pathDisj_extend_right hd ["config", "layout.js"]) houtA]
        exact hex2
      cases hex3 : FS.existsPath
          (FS.copyTree g (root ++ ["admin"]) (C ++ ["plugins", n, "admin"]))
          (root ++ ["package.json"]) with
      | false => simp [hex3] at h
      | true =>
        simp only [hex3, if_true, Except.ok.injEq] at h
        subst h
        refine ⟨wfA.copyTree _ _, ?_, ?_⟩
        · intro q hq
          rw [read_copyTree_outside wfA (root ++ ["package.json"])
              ["plugins", n, "package.json"] hq,
            houtA q hq]
        · intro rel
          rw [read_copyTree_cache wfA C (root ++ ["package.json"])
              ["plugins", n, "package.json"] rel,
            houtA _ (hsrc ["package.json"] _),
            read_copyTree_cache wf C (root ++ ["admin"]) ["plugins", n, "admin"] rel]
          unfold pluginLayerContent
          simp only [hr]
          cases hA : (["plugins", n, "admin"] : FPath).isPrefixOf rel with
          | true =>
            cases hL : (["plugins", n, "config", "layout.js"] : FPath).isPrefixOf rel with
            | true =>
              exact absurd (@component_eq_of_prefixes ["plugins", n] "admin" "config"
                [] ["layout.js"] rel hA hL) (by decide)
            | false =>
              cases hK : (["plugins", n, "package.json"] : FPath).isPrefixOf rel with
              | true =>
                exact absurd (@component_eq_of_prefixes ["plugins", n] "admin"
                  "package.json" [] [] rel hA hK) (by decide)
              | false =>
                have hshape : root ++ ["admin"] ++
                    rel.drop (["plugins", n, "admin"] : FPath).length =
                    root ++ rel.drop 2 := by
                  rw [List.append_assoc]
                  conv_rhs => rw [← append_drop_restores hA]
                  rfl
                simp only [hA, hL, hK, Bool.false_eq_true, Bool.true_or, Bool.false_or,
                  if_true, if_false, ite_true, ite_false, hshape]
          | false =>
            cases hL : (["plugins", n, "config", "layout.js"] : FPath).isPrefixOf rel with
            | true =>
              cases hK : (["plugins", n, "package.json"] : FPath).isPrefixOf rel with
              | true =>
                exact absurd (@component_eq_of_prefixes ["plugins", n] "config"
                  "package.json" ["layout.js"] [] rel hL hK) (by decide)
              | false =>
                have hshape : root ++ ["config", "layout.js"] ++
                    rel.drop (["plugins", n, "config", "layout.js"] : FPath).length =
                    root ++ rel.drop 2 := by
                  rw [List.append_assoc]
                  conv_rhs => rw [← append_drop_restores hL]
                  rfl
                have hnone : FS.read g (root ++ rel.drop 2) = none := by
                  rw [← hshape]
                  exact FS.read_none_of_not_existsPath hex2g _
                simp only [hA, hL, hK, Bool.false_eq_true, Bool.true_or, Bool.false_or,
                  if_true, if_false, ite_true, ite_false, hnone]
                rfl
            | false =>
              cases hK : (["plugins", n, "package.json"] : FPath).isPrefixOf rel with
              | true =>
                have hshape : root ++ ["package.json"] ++
                    rel.drop (["plugins", n, "package.json"] : FPath).length =
                    root ++ rel.drop 2 := by
                  rw [List.append_assoc]
                  conv_rhs => rw [← append_drop_restores hK]
                  rfl
                simp only [hA, hL, hK, Bool.false_eq_true, Bool.true_or, Bool.false_or,
                  if_true, if_false, ite_true, ite_false, hshape]
              | false =>
                simp only [hA, hL, hK, Bool.false_eq_true, Bool.false_or, if_false,
                  ite_false]
                rfl

/-- copyAdmin succeeds when the base package ships its admin tree and its
config/layout.js. -/
theorem copyAdmin_ok {R : String → Option FPath} {ar C : FPath} {g : FS}
    (wf : FS.Wf g) (har : R "strapi-admin" = some ar) (hd : PathDisj ar C)
    (h1 : FS.existsPath g (ar ++ ["admin"]) = true)
    (h2 : FS.existsPath g (ar ++ ["config", "layout.js"]) = true) :
    ∃ g2, copyAdmin R C g = .ok g2 := by
  simp only [copyAdmin, getPkgPath, har, bind, Except.bind, FS.copyE, h1, if_true]
  have h2A : FS.existsPath (FS.copyTree g (ar ++ ["admin"]) (C ++ ["admin"]))
      (ar ++ ["config", "layout.js"]) = true := by
    rw [existsPath_eq_of_outside (pathDisj_extend_right hd ["config", "layout.js"])
      (fun q hq => read_copyTree_outside wf (ar ++ ["admin"]) ["admin"] hq)]
    exact h2
  simp only [h2A, if_true]
  exact ⟨_, rfl⟩

theorem copyAdmin_ok_conditions {R : String → Option FPath} {ar C : FPath}
    {g g2 : FS} (wf : FS.Wf g) (har : R "strapi-admin" = some ar)
    (hd : PathDisj ar C) (h : copyAdmin R C g = .ok g2) :
    FS.existsPath g (ar ++ ["admin"]) = true ∧
    FS.existsPath g (ar ++ ["config", "layout.js"]) = true := by
  simp only [copyAdmin, getPkgPath, har, bind, Except.bind] at h
  cases hex1 : FS.existsPath g (ar ++ ["admin"]) with
  | false => simp [FS.copyE, hex1] at h
  | true =>
    simp only [FS.copyE, hex1, if_true] at h
    cases hex2 : FS.existsPath (FS.copyTree g (ar ++ ["admin"]) (C ++ ["admin"]))
        (ar ++ ["config", "layout.js"]) with
    | false => simp [hex2] at h
    | true =>
      refine ⟨rfl, ?_⟩
      rw [← existsPath_eq_of_outside (pathDisj_extend_right hd ["config", "layout.js"])
        (fun q hq => read_copyTree_outside wf (ar ++ ["admin"]) ["admin"] hq)]
      exact hex2

/-- copyPlugin succeeds when the plugin ships its admin tree and its
package.json. -/
theorem copyPlugin_ok {R : String → Option FPath} {C : FPath} {n : String}
    {root : FPath} {g : FS}
    (wf : FS.Wf g) (hr : R n = some root) (hd : PathDisj root C)
    (h1 : FS.existsPath g (root ++ ["admin"]) = true)
    (h2 : FS.existsPath g (root ++ ["package.json"]) = true) :
    ∃ g2, copyPlugin R n C g = .ok g2 := by
  have wfA : FS.Wf (FS.copyTree g (root ++ ["admin"]) (C ++ ["plugins", n, "admin"])) :=
    wf.copyTree _ _
  have houtA : ∀ q, C.isPrefixOf q = false →
      FS.read (FS.copyTree g (root ++ ["admin"]) (C ++ ["plugins", n, "admin"])) q =
      FS.read g q :=
    fun q hq => read_copyTree_outside wf (root ++ ["admin"]) ["plugins", n, "admin"] hq
  simp only [copyPlugin, getPkgPath, hr, bind, Except.bind, FS.copyE, h1, if_true]
  cases hex2 : FS.existsPath
      (FS.copyTree g (root ++ ["admin"]) (C ++ ["plugins", n, "admin"]))
      (root ++ ["config", "layout.js"]) with
  | true =>
    simp only [hex2, if_true]
    have h2B : FS.existsPath (FS.copyTree
        (FS.copyTree g (root ++ ["admin"]) (C ++ ["plugins", n, "admin"]))
        (root ++ ["config", "layout.js"]) (C ++ ["plugins", n, "config", "layout.js"]))
        (root ++ ["package.json"]) = true := by
      rw [existsPath_eq_of_outside (pathDisj_extend_right hd ["package.json"])
        (fun q hq => read_copyTree_outside wfA (root ++ ["config", "layout.js"])
          ["plugins", n, "config", "layout.js"] hq),
        existsPath_eq_of_outside (pathDisj_extend_right hd ["package.json"]) houtA]
      exact h2
    simp only [h2B, if_true]
    exact ⟨_, rfl⟩
  | false =>
    simp only [hex2, Bool.false_eq_true, if_false, pure, Except.pure]
    have h2A : FS.existsPath
        (FS.copyTree g (root ++ ["admin"]) (C ++ ["plugins", n, "admin"]))
        (root ++ ["package.json"]) = true := by
      rw [existsPath_eq_of_outside (pathDisj_extend_right hd ["package.json"]) houtA]
      exact h2
    simp only [h2A, if_true]
    exact ⟨_, rfl⟩

theorem copyPlugin_ok_conditions {R : String → Option FPath} {C : FPath}
    {n : String} {root : FPath} {g g2 : FS}
    (wf : FS.Wf g) (hr : R n = some root) (hd : PathDisj root C)
    (h : copyPlugin R n C g = .ok g2) :
    FS.existsPath g (root ++ ["admin"]) = true ∧
    FS.existsPath g (root ++ ["package.json"]) = true := by
  have wfA : FS.Wf (FS.copyTree g (root ++ ["admin"]) (C ++ ["plugins", n, "admin"])) :=
    wf.copyTree _ _
  have houtA : ∀ q, C.isPrefixOf q = false →
      FS.read (FS.copyTree g (root ++ ["admin"]) (C ++ ["plugins", n, "admin"])) q =
      FS.read g q :=
    fun q hq => read_copyTree_outside wf (root ++ ["admin"]) ["plugins", n, "admin"] hq
  simp only [copyPlugin, getPkgPath, hr, bind, Except.bind] at h
  cases hex1 : FS.existsPath g (root ++ ["admin"]) with
  | false => simp [FS.copyE, hex1] at h
  | true =>
    simp only [FS.copyE, hex1, if_true] at h
    refine ⟨rfl, ?_⟩
    cases hex2 : FS.existsPath
        (FS.copyTree g (root ++ ["admin"]) (C ++ ["plugins", n, "admin"]))
        (root ++ ["config", "layout.js"]) with
    | true =>
      simp only [hex2, if_true] at h
      cases hex3 : FS.existsPath (FS.copyTree
          (FS.copyTree g (root ++ ["admin"]) (C ++ ["plugins", n, "admin"]))
          (root ++ ["config", "layout.js"]) (C ++ ["plugins", n, "config", "layout.js"]))
          (root ++ ["package.json"]) with
      | false => simp [hex3] at h
      | true =>
        rw [← existsPath_eq_of_outside (pathDisj_extend_right hd ["package.json"]) houtA,
          ← existsPath_eq_of_outside (pathDisj_extend_right hd ["package.json"])
            (fun q hq => read_copyTree_outside wfA (root ++ ["config", "layout.js"])
              ["plugins", n, "config", "layout.js"] hq)]
        exact hex3
    | false =>
      simp only [hex2, Bool.false_eq_true, if_false, pure, Except.pure] at h
      cases hex3 : FS.existsPath
          (FS.copyTree g (root ++ ["admin"]) (C ++ ["plugins", n, "admin"]))
          (root ++ ["package.json"]) with
      | false => simp [hex3] at h
      | true =>
        rw [← existsPath_eq_of_outside (pathDisj_extend_right hd ["package.json"]) houtA]
        exact hex3

/-- The run of line 110 over the discovered plugins: the pick-fold of the
plugin layers over the cache, and no effect elsewhere. -/
theorem copyPluginsE_spec {R : String → Option FPath} {C : FPath}
    (hsep : SepEnv R C) :
    ∀ (P : List String) {fs0 g g2 : FS}, FS.Wf g →
    (∀ q, C.isPrefixOf q = false → FS.read g q = FS.read fs0 q) →
    copyPluginsE R P C g = .ok g2 →
    FS.Wf g2 ∧
    (∀ q, C.isPrefixOf q = false → FS.read g2 q = FS.read fs0 q) ∧
    (∀ rel, FS.read g2 (C ++ rel) =
      P.foldl (fun acc p => pick (pluginLayerContent R fs0 p rel) acc)
        (FS.read g (C ++ rel))) := by
  intro P
  induction P with
  | nil =>
    intro fs0 g g2 wf hout h
    simp only [copyPluginsE] at h
    injection h with h
    subst h
    exact ⟨wf, hout, fun rel => rfl⟩
  | cons nme rest ih =>
    intro fs0 g g2 wf hout h
    simp only [copyPluginsE, bind, Except.bind] at h
    cases hstep : copyPlugin R nme C g with
    | error e => simp [hstep] at h
    | ok g1 =>
      simp only [hstep] at h
      cases hroot : R nme with
      | none => simp [copyPlugin, getPkgPath, hroot, bind, Except.bind] at hstep
      | some root =>
        obtain ⟨wf1, hout1, hin1⟩ := copyPlugin_spec wf hroot (hsep nme root hroot) hstep
        obtain ⟨wf2, hout2, hin2⟩ :=
          ih wf1 (fun q hq => (hout1 q hq).trans (hout q hq)) h
        refine ⟨wf2, hout2, ?_⟩
        intro rel
        rw [List.foldl_cons, hin2 rel, hin1 rel,
          pluginLayerContent_congr hsep hout nme rel]

theorem copyPluginsE_ok {R : String → Option FPath} {C : FPath}
    (hsep : SepEnv R C) :
    ∀ (P : List String) {fs0 g : FS}, FS.Wf g →
    (∀ q, C.isPrefixOf q = false → FS.read g q = FS.read fs0 q) →
    (∀ p ∈ P, ∃ root, R p = some root ∧
      FS.existsPath fs0 (root ++ ["admin"]) = true ∧
      FS.existsPath fs0 (root ++ ["package.json"]) = true) →
    ∃ g2, copyPluginsE R P C g = .ok g2 := by
  intro P
  induction P with
  | nil => intro fs0 g _ _ _; exact ⟨g, rfl⟩
  | cons nme rest ih =>
    intro fs0 g wf hout hcond
    obtain ⟨root, hroot, hadm, hpkg⟩ := hcond nme (List.mem_cons_self nme rest)
    have hd := hsep nme root hroot
    have hadm2 : FS.existsPath g (root ++ ["admin"]) = true := by
      rw [existsPath_eq_of_outside (pathDisj_extend_right hd ["admin"]) hout]
      exact hadm
    have hpkg2 : FS.existsPath g (root ++ ["package.json"]) = true := by
      rw [existsPath_eq_of_outside (pathDisj_extend_right hd ["package.json"]) hout]
      exact hpkg
    obtain ⟨g1, hg1⟩ := copyPlugin_ok wf hroot hd hadm2 hpkg2
    obtain ⟨wf1, hout1, -⟩ := copyPlugin_spec wf hroot hd hg1
    obtain ⟨g2, hg2⟩ := ih wf1 (fun q hq => (hout1 q hq).trans (hout q hq))
      (fun p hp => hcond p (List.mem_cons_of_mem nme hp))
    refine ⟨g2, ?_⟩
    simp only [copyPluginsE, bind, Except.bind, hg1]
    exact hg2

theorem copyPluginsE_ok_conditions {R : String → Option FPath} {C : FPath}
    (hsep : SepEnv R C) :
    ∀ (P : List String) {fs0 g g2 : FS}, FS.Wf g →
    (∀ q, C.isPrefixOf q = false → FS.read g q = FS.read fs0 q) →
    copyPluginsE R P C g = .ok g2 →
    ∀ p ∈ P, ∃ root, R p = some root ∧
      FS.existsPath fs0 (root ++ ["admin"]) = true ∧
      FS.existsPath fs0 (root ++ ["package.json"]) = true := by
  intro P
  induction P with
  | nil => intro fs0 g g2 _ _ _ p hp; exact absurd hp (List.not_mem_nil p)
  | cons nme rest ih =>
    intro fs0 g g2 wf hout h p hp
    simp only [copyPluginsE, bind, Except.bind] at h
    cases hstep : copyPlugin R nme C g with
    | error e => simp [hstep] at h
    | ok g1 =>
      simp only [hstep] at h
      cases hroot : R nme with
      | none => simp [copyPlugin, getPkgPath, hroot, bind, Except.bind] at hstep
      | some root =>
        have hd := hsep nme root hroot
        obtain ⟨hadm, hpkg⟩ := copyPlugin_ok_conditions wf hroot hd hstep
        obtain ⟨wf1, hout1, -⟩ := copyPlugin_spec wf hroot hd hstep
        rcases List.mem_cons.mp hp with hpe | hpr
        · subst hpe
          refine ⟨root, hroot, ?_, ?_⟩
          · rw [← existsPath_eq_of_outside (pathDisj_extend_right hd ["admin"]) hout]
            exact hadm
          · rw [← existsPath_eq_of_outside
              (pathDisj_extend_right hd ["package.json"]) hout]
            exact hpkg
        · exact ih wf1 (fun q hq => (hout1 q hq).trans (hout q hq)) h p hpr

/-- The run of lines 131-138 over a list of short names: the pick-fold of
the extension override sources over the cache, and no effect elsewhere. -/
theorem copyExtensionsE_spec {dir : FPath} :
    ∀ (names : List String) {fs0 g g2 : FS}, FS.Wf g →
    (∀ q, (dir ++ [".cache"]).isPrefixOf q = false → FS.read g q = FS.read fs0 q) →
    copyExtensionsE dir (dir ++ [".cache"]) names g = .ok g2 →
    FS.Wf g2 ∧
    (∀ q, (dir ++ [".cache"]).isPrefixOf q = false → FS.read g2 q = FS.read fs0 q) ∧
    (∀ rel, FS.read g2 (dir ++ [".cache"] ++ rel) =
      names.foldl (fun acc s =>
        pick (if (["plugins", "strapi-plugin-" ++ s, "admin"] : FPath).isPrefixOf rel
            then FS.read fs0 (dir ++ ["extensions", s] ++ rel.drop 2) else none) acc)
        (FS.read g (dir ++ [".cache"] ++ rel))) := by
  intro names
  induction names with
  | nil =>
    intro fs0 g g2 wf hout h
    simp only [copyExtensionsE] at h
    injection h with h
    subst h
    exact ⟨wf, hout, fun rel => rfl⟩
  | cons s rest ih =>
    intro fs0 g g2 wf hout h
    have hdst : (dir ++ [".cache"] ++ ["plugins", "strapi-plugin-" ++ s]) ++ ["admin"] =
        dir ++ [".cache"] ++ ["plugins", "strapi-plugin-" ++ s, "admin"] := by
      simp
    simp only [copyExtensionsE, copyCustomAdmin, bind, Except.bind, FS.copyE, hdst] at h
    cases hex : FS.existsPath g (dir ++ ["extensions", s, "admin"]) with
    | false => simp [hex] at h
    | true =>
      simp only [hex, if_true] at h
      have hsrcout : ∀ t : FPath,
          (dir ++ [".cache"]).isPrefixOf ((dir ++ ["extensions", s, "admin"]) ++ t) =
            false := by
        intro t
        rw [List.append_assoc]
        exact not_prefix_to_bool
          (singleton_component_incomparable (by decide) [] _)
      have hout1 : ∀ q, (dir ++ [".cache"]).isPrefixOf q = false →
          FS.read (FS.copyTree g (dir ++ ["extensions", s, "admin"])
            (dir ++ [".cache"] ++ ["plugins", "strapi-plugin-" ++ s, "admin"])) q =
          FS.read g q :=
        fun q hq => read_copyTree_outside wf (dir ++ ["extensions", s, "admin"])
          ["plugins", "strapi-plugin-" ++ s, "admin"] hq
      obtain ⟨wf2, hout2, hin2⟩ := ih (wf.copyTree _ _)
        (fun q hq => (hout1 q hq).trans (hout q hq)) h
      refine ⟨wf2, hout2, ?_⟩
      intro rel
      rw [List.foldl_cons, hin2 rel,
        read_copyTree_cache wf (dir ++ [".cache"]) (dir ++ ["extensions", s, "admin"])
          ["plugins", "strapi-plugin-" ++ s, "admin"] rel]
      cases ht : (["plugins", "strapi-plugin-" ++ s, "admin"] : FPath).isPrefixOf rel with
      | true =>
        have hshape : dir ++ ["extensions", s] ++ rel.drop 2 =
            (dir ++ ["extensions", s, "admin"]) ++
              rel.drop (["plugins", "strapi-plugin-" ++ s, "admin"] : FPath).length := by
          rw [List.append_assoc, List.append_assoc]
          conv_lhs => rw [← append_drop_restores ht]
          rfl
        simp only [ht, if_true, ite_true, hshape,
          hout _ (hsrcout _)]
      | false =>
        simp only [ht, Bool.false_eq_true, if_false, ite_false]
        rfl

theorem copyExtensionsE_ok {dir : FPath} :
    ∀ (names : List String) {g : FS}, FS.Wf g →
    (∀ s ∈ names, FS.existsPath g (dir ++ ["extensions", s, "admin"]) = true) →
    ∃ g2, copyExtensionsE dir (dir ++ [".cache"]) names g = .ok g2 := by
  intro names
  induction names with
  | nil => intro g _ _; exact ⟨g, rfl⟩
  | cons s rest ih =>
    intro g wf hcond
    have hex := hcond s (List.mem_cons_self s rest)
    have hdst : (dir ++ [".cache"] ++ ["plugins", "strapi-plugin-" ++ s]) ++ ["admin"] =
        dir ++ [".cache"] ++ ["plugins", "strapi-plugin-" ++ s, "admin"] := by
      simp
    have hout1 : ∀ q, (dir ++ [".cache"]).isPrefixOf q = false →
        FS.read (FS.copyTree g (dir ++ ["extensions", s, "admin"])
          (dir ++ [".cache"] ++ ["plugins", "strapi-plugin-" ++ s, "admin"])) q =
        FS.read g q :=
      fun q hq => read_copyTree_outside wf (dir ++ ["extensions", s, "admin"])
        ["plugins", "strapi-plugin-" ++ s, "admin"] hq
    have hrest : ∀ x ∈ rest, FS.existsPath
        (FS.copyTree g (dir ++ ["extensions", s, "admin"])
          (dir ++ [".cache"] ++ ["plugins", "strapi-plugin-" ++ s, "admin"]))
        (dir ++ ["extensions", x, "admin"]) = true := by
      intro x hx
      rw [existsPath_eq_of_outside (pathDisj_cache_sibling (by decide) [x, "admin"])
        hout1]
      exact hcond x (List.mem_cons_of_mem s hx)
    obtain ⟨g2, hg2⟩ := ih (wf.copyTree _ _) hrest
    refine ⟨g2, ?_⟩
    simp only [copyExtensionsE, copyCustomAdmin, bind, Except.bind, FS.copyE, hdst,
      hex, if_true]
    exact hg2

/-! ### The full materialization run -/

/-- Under the success conditions of every step, createCacheDir succeeds,
rewrites only the cache subtree, and leaves exactly `mergedContent` at
every cache-relative path. -/
theorem createCacheDir_run {R : String → Option FPath} {deps : List String}
    {dir : FPath} {fs : FS} {P : List String} {ar : FPath}
    (wf : FS.Wf fs) (hsep : SepEnv R (dir ++ [".cache"]))
    (hP : pluginsToCopyE R fs deps = .ok P)
    (har : R "strapi-admin" = some ar)
    (hbase1 : FS.existsPath fs (ar ++ ["admin"]) = true)
    (hbase2 : FS.existsPath fs (ar ++ ["config", "layout.js"]) = true)
    (hplug : ∀ p ∈ P, ∃ root, R p = some root ∧
      FS.existsPath fs (root ++ ["admin"]) = true ∧
      FS.existsPath fs (root ++ ["package.json"]) = true) :
    ∃ fs', createCacheDir R (some deps) dir fs = .ok fs' ∧
      FS.Wf fs' ∧
      (∀ q, (dir ++ [".cache"]).isPrefixOf q = false → FS.read fs' q = FS.read fs q) ∧
      (∀ rel, FS.read fs' (dir ++ [".cache"] ++ rel) =
        mergedContent R fs dir ar P rel) := by
  have hd_ar : PathDisj ar (dir ++ [".cache"]) := hsep "strapi-admin" ar har
  have wf1 : FS.Wf (FS.removeTree fs (dir ++ [".cache"])) := wf.removeTree _
  have hout1 : ∀ q, (dir ++ [".cache"]).isPrefixOf q = false →
      FS.read (FS.removeTree fs (dir ++ [".cache"])) q = FS.read fs q := by
    intro q hq
    rw [FS.read_removeTree]
    simp [hq]
  have hin1 : ∀ rel, FS.read (FS.removeTree fs (dir ++ [".cache"]))
      (dir ++ [".cache"] ++ rel) = none := by
    intro rel
    rw [FS.read_removeTree,
      if_pos (List.isPrefixOf_iff_prefix.mpr (List.prefix_append _ _))]
  obtain ⟨g2, hA⟩ := copyAdmin_ok wf1 har hd_ar
    (by rw [existsPath_eq_of_outside (pathDisj_extend_right hd_ar ["admin"]) hout1]
        exact hbase1)
    (by rw [existsPath_eq_of_outside
          (pathDisj_extend_right hd_ar ["config", "layout.js"]) hout1]
        exact hbase2)
  obtain ⟨wf2, hout2, hin2⟩ := copyAdmin_spec wf1 har hd_ar hA
  have hout2f : ∀ q, (dir ++ [".cache"]).isPrefixOf q = false →
      FS.read g2 q = FS.read fs q := fun q hq => (hout2 q hq).trans (hout1 q hq)
  have hin2f : ∀ rel, FS.read g2 (dir ++ [".cache"] ++ rel) =
      baseLayerContent ar fs rel := by
    intro rel
    rw [hin2 rel, hin1 rel, pick_none_right,
      baseLayerContent_congr hd_ar.symm hout1 rel]
  obtain ⟨g3, hPl⟩ := copyPluginsE_ok hsep P wf2 hout2f hplug
  obtain ⟨wf3, hout3, hin3⟩ := copyPluginsE_spec hsep P wf2 hout2f hPl
  have hin3f : ∀ rel, FS.read g3 (dir ++ [".cache"] ++ rel) =
      P.foldl (fun acc p => pick (pluginLayerContent R fs p rel) acc)
        (baseLayerContent ar fs rel) := by
    intro rel
    rw [hin3 rel, hin2f rel]
  have wf4 : FS.Wf (createPluginsJsFS P (dir ++ [".cache"]) g3) := wf3.write _ _
  have hout4 : ∀ q, (dir ++ [".cache"]).isPrefixOf q = false →
      FS.read (createPluginsJsFS P (dir ++ [".cache"]) g3) q = FS.read fs q :=
    fun q hq => (read_createPluginsJsFS_outside hq).trans (hout3 q hq)
  have hg4in : ∀ rel, FS.read (createPluginsJsFS P (dir ++ [".cache"]) g3)
      (dir ++ [".cache"] ++ rel) =
      (if rel = ["admin", "src", "plugins.js"] then some (pluginsJsContent P)
       else P.foldl (fun acc p => pick (pluginLayerContent R fs p rel) acc)
         (baseLayerContent ar fs rel)) := by
    intro rel
    rw [read_createPluginsJsFS_inside]
    by_cases hm : rel = ["admin", "src", "plugins.js"]
    · rw [if_pos hm, if_pos hm]
    · rw [if_neg hm, if_neg hm, hin3f rel]
  have hgate : FS.existsPath (createPluginsJsFS P (dir ++ [".cache"]) g3)
      (dir ++ ["admin"]) = FS.existsPath fs (dir ++ ["admin"]) :=
    existsPath_eq_of_outside (pathDisj_cache_sibling (by decide) []) hout4
  have hstage6 : ∀ g5 : FS, FS.Wf g5 →
      (∀ q, (dir ++ [".cache"]).isPrefixOf q = false →
        FS.read g5 q = FS.read fs q) →
      (∀ rel, FS.read g5 (dir ++ [".cache"] ++ rel) =
        pick (projLayerContent dir fs rel)
          (if rel = ["admin", "src", "plugins.js"] then some (pluginsJsContent P)
           else P.foldl (fun acc p => pick (pluginLayerContent R fs p rel) acc)
             (baseLayerContent ar fs rel))) →
      ∃ fs', copyExtensionsE dir (dir ++ [".cache"])
          (pluginsToOverride P dir g5) g5 = .ok fs' ∧
        FS.Wf fs' ∧
        (∀ q, (dir ++ [".cache"]).isPrefixOf q = false →
          FS.read fs' q = FS.read fs q) ∧
        (∀ rel, FS.read fs' (dir ++ [".cache"] ++ rel) =
          mergedContent R fs dir ar P rel) := by
    intro g5 wf5 hout5 hin5
    have hmem : ∀ s ∈ pluginsToOverride P dir g5,
        FS.existsPath g5 (dir ++ ["extensions", s, "admin"]) = true := by
      intro s hs
      rw [pluginsToOverride_eq] at hs
      rcases List.mem_map.mp hs with ⟨p, hpf, hps⟩
      rcases List.mem_filter.mp hpf with ⟨-, hpc⟩
      rw [← hps]
      exact hpc
    obtain ⟨fs', hExt⟩ := copyExtensionsE_ok (pluginsToOverride P dir g5) wf5 hmem
    obtain ⟨wf6, hout6, hin6⟩ := copyExtensionsE_spec (pluginsToOverride P dir g5)
      wf5 hout5 hExt
    refine ⟨fs', hExt, wf6, hout6, ?_⟩
    intro rel
    rw [hin6 rel]
    have hfiltereq : P.filter (fun p => FS.existsPath g5
        (dir ++ ["extensions", stripPluginPrefix p, "admin"])) =
        P.filter (fun p => FS.existsPath fs
          (dir ++ ["extensions", stripPluginPrefix p, "admin"])) :=
      List.filter_congr (fun p _ => existsPath_eq_of_outside
        (pathDisj_cache_sibling (by decide) [stripPluginPrefix p, "admin"]) hout5)
    have hnone : ∀ p ∈ P, (fun p => FS.existsPath fs
        (dir ++ ["extensions", stripPluginPrefix p, "admin"])) p = false →
        extLayerContent dir fs p rel = none := by
      intro p _ hpc
      simp only at hpc
      unfold extLayerContent
      cases hg : (["plugins", "strapi-plugin-" ++ stripPluginPrefix p, "admin"]
          : FPath).isPrefixOf rel with
      | false => simp [hg]
      | true =>
        have hshape : dir ++ ["extensions", stripPluginPrefix p] ++ rel.drop 2 =
            (dir ++ ["extensions", stripPluginPrefix p, "admin"]) ++
              rel.drop
                (["plugins", "strapi-plugin-" ++ stripPluginPrefix p, "admin"]
                  : FPath).length := by
          rw [List.append_assoc, List.append_assoc]
          conv_lhs => rw [← append_drop_restores hg]
          rfl
        simp only [hg, if_true, ite_true]
        rw [hshape]
        exact FS.read_none_of_not_existsPath hpc _
    have hfold : ∀ a : Option String,
        ((P.filter (fun p => FS.existsPath fs
            (dir ++ ["extensions", stripPluginPrefix p, "admin"]))).map
          stripPluginPrefix).foldl (fun acc s =>
            pick (if (["plugins", "strapi-plugin-" ++ s, "admin"]
                : FPath).isPrefixOf rel
              then FS.read fs (dir ++ ["extensions", s] ++ rel.drop 2)
              else none) acc) a =
        P.foldl (fun acc p => pick (extLayerContent dir fs p rel) acc) a := by
      intro a
      rw [List.foldl_map]
      have hbody : (fun (x : Option String) (y : String) =>
          pick (if (["plugins", "strapi-plugin-" ++ stripPluginPrefix y, "admin"]
              : FPath).isPrefixOf rel
            then FS.read fs (dir ++ ["extensions", stripPluginPrefix y] ++ rel.drop 2)
            else none) x) =
          (fun (x : Option String) (y : String) =>
            pick (extLayerContent dir fs y rel) x) := by
        funext x y
        unfold extLayerContent
        rfl
      rw [hbody]
      exact foldl_pick_filter P hnone a
    rw [pluginsToOverride_eq, hfiltereq, hfold, hin5 rel]
    simp only [mergedContent]
  cases hpe : FS.existsPath fs (dir ++ ["admin"]) with
  | true =>
    have hgatetrue : FS.existsPath (createPluginsJsFS P (dir ++ [".cache"]) g3)
        (dir ++ ["admin"]) = true := by
      rw [hgate]
      exact hpe
    have wf5 : FS.Wf (FS.copyTree (createPluginsJsFS P (dir ++ [".cache"]) g3)
        (dir ++ ["admin"]) ((dir ++ [".cache"]) ++ ["admin"])) := wf4.copyTree _ _
    have hout5 : ∀ q, (dir ++ [".cache"]).isPrefixOf q = false →
        FS.read (FS.copyTree (createPluginsJsFS P (dir ++ [".cache"]) g3)
          (dir ++ ["admin"]) ((dir ++ [".cache"]) ++ ["admin"])) q =
        FS.read fs q :=
      fun q hq => (read_copyTree_outside wf4 (dir ++ ["admin"]) ["admin"] hq).trans
        (hout4 q hq)
    have hin5 : ∀ rel, FS.read (FS.copyTree (createPluginsJsFS P (dir ++ [".cache"]) g3)
        (dir ++ ["admin"]) ((dir ++ [".cache"]) ++ ["admin"]))
        (dir ++ [".cache"] ++ rel) =
        pick (projLayerContent dir fs rel)
          (if rel = ["admin", "src", "plugins.js"] then some (pluginsJsContent P)
           else P.foldl (fun acc p => pick (pluginLayerContent R fs p rel) acc)
             (baseLayerContent ar fs rel)) := by
      intro rel
      rw [read_copyTree_cache wf4 (dir ++ [".cache"]) (dir ++ ["admin"]) ["admin"] rel]
      unfold projLayerContent
      cases hAd : (["admin"] : FPath).isPrefixOf rel with
      | true =>
        have hdropeq : dir ++ ["admin"] ++ rel.drop (["admin"] : FPath).length =
            dir ++ rel := by
          rw [List.append_assoc, append_drop_restores hAd]
        have hq : (dir ++ [".cache"]).isPrefixOf (dir ++ rel) = false := by
          rw [singleton_prefix_to_cons hAd]
          exact not_prefix_to_bool
            (singleton_component_incomparable (by decide) [] _)
        rw [hdropeq, hout4 (dir ++ rel) hq, hg4in rel]
        simp only [hAd, if_true, ite_true]
      | false =>
        simp only [hAd, Bool.false_eq_true, if_false, ite_false]
        rw [hg4in rel]
        rfl
    obtain ⟨fs', hExt, wf6, hout6, hin6⟩ := hstage6 _ wf5 hout5 hin5
    refine ⟨fs', ?_, wf6, hout6, hin6⟩
    simp only [createCacheDir, bind, Except.bind, hP, hA, hPl, copyCustomAdmin,
      FS.copyE, hgatetrue, if_true]
    exact hExt
  | false =>
    have hgatefalse : FS.existsPath (createPluginsJsFS P (dir ++ [".cache"]) g3)
        (dir ++ ["admin"]) = false := by
      rw [hgate]
      exact hpe
    have hin5 : ∀ rel, FS.read (createPluginsJsFS P (dir ++ [".cache"]) g3)
        (dir ++ [".cache"] ++ rel) =
        pick (projLayerContent dir fs rel)
          (if rel = ["admin", "src", "plugins.js"] then some (pluginsJsContent P)
           else P.foldl (fun acc p => pick (pluginLayerContent R fs p rel) acc)
             (baseLayerContent ar fs rel)) := by
      intro rel
      unfold projLayerContent
      cases hAd : (["admin"] : FPath).isPrefixOf rel with
      | true =>
        have hsplit : dir ++ rel = (dir ++ ["admin"]) ++ rel.drop 1 := by
          rw [List.append_assoc]
          conv_lhs => rw [singleton_prefix_to_cons hAd]
          rfl
        have hnoneproj : FS.read fs (dir ++ rel) = none := by
          rw [hsplit]
          exact FS.read_none_of_not_existsPath hpe _
        simp only [hAd, if_true, ite_true, hnoneproj]
        rw [hg4in rel]
        rfl
      | false =>
        simp only [hAd, Bool.false_eq_true, if_false, ite_false]
        rw [hg4in rel]
        rfl
    obtain ⟨fs', hExt, wf6, hout6, hin6⟩ := hstage6 _ wf4 hout4 hin5
    refine ⟨fs', ?_, wf6, hout6, hin6⟩
    simp only [createCacheDir, bind, Except.bind, hP, hA, hPl, hgatefalse,
      Bool.false_eq_true, if_false, pure, Except.pure]
    exact hExt

/-- A successful run forces every step's success condition. -/
theorem createCacheDir_ok_conditions {R : String → Option FPath}
    {deps : List String} {dir : FPath} {fs fs' : FS}
    (wf : FS.Wf fs) (hsep : SepEnv R (dir ++ [".cache"]))
    (h : createCacheDir R (some deps) dir fs = .ok fs') :
    ∃ P ar, pluginsToCopyE R fs deps = .ok P ∧ R "strapi-admin" = some ar ∧
      FS.existsPath fs (ar ++ ["admin"]) = true ∧
      FS.existsPath fs (ar ++ ["config", "layout.js"]) = true ∧
      (∀ p ∈ P, ∃ root, R p = some root ∧
        FS.existsPath fs (root ++ ["admin"]) = true ∧
        FS.existsPath fs (root ++ ["package.json"]) = true) := by
  have wf1 : FS.Wf (FS.removeTree fs (dir ++ [".cache"])) := wf.removeTree _
  have hout1 : ∀ q, (dir ++ [".cache"]).isPrefixOf q = false →
      FS.read (FS.removeTree fs (dir ++ [".cache"])) q = FS.read fs q := by
    intro q hq
    rw [FS.read_removeTree]
    simp [hq]
  simp only [createCacheDir, bind, Except.bind] at h
  cases hP : pluginsToCopyE R fs deps with
  | error e => simp [hP] at h
  | ok P =>
    simp only [hP] at h
    cases har : R "strapi-admin" with
    | none => simp [copyAdmin, getPkgPath, har, bind, Except.bind] at h
    | some ar =>
      have hd_ar : PathDisj ar (dir ++ [".cache"]) := hsep "strapi-admin" ar har
      cases hA : copyAdmin R (dir ++ [".cache"])
          (FS.removeTree fs (dir ++ [".cache"])) with
      | error e => simp [hA] at h
      | ok g2 =>
        simp only [hA] at h
        obtain ⟨hb1, hb2⟩ := copyAdmin_ok_conditions wf1 har hd_ar hA
        obtain ⟨wf2, hout2, -⟩ := copyAdmin_spec wf1 har hd_ar hA
        have hout2f : ∀ q, (dir ++ [".cache"]).isPrefixOf q = false →
            FS.read g2 q = FS.read fs q :=
          fun q hq => (hout2 q hq).trans (hout1 q hq)
        cases hPl : copyPluginsE R P (dir ++ [".cache"]) g2 with
        | error e => simp [hPl] at h
        | ok g3 =>
          refine ⟨P, ar, rfl, rfl, ?_, ?_, ?_⟩
          · rw [← existsPath_eq_of_outside
              (pathDisj_extend_right hd_ar ["admin"]) hout1]
            exact hb1
          · rw [← existsPath_eq_of_outside
              (pathDisj_extend_right hd_ar ["config", "layout.js"]) hout1]
            exact hb2
          · exact copyPluginsE_ok_conditions hsep P wf2 hout2f hPl

/-- The characterization of the tree a successful run leaves behind. -/
theorem createCacheDir_spec {R : String → Option FPath} {deps : List String}
    {dir : FPath} {fs fs' : FS} {P : List String} {ar : FPath}
    (wf : FS.Wf fs) (hsep : SepEnv R (dir ++ [".cache"]))
    (hP : pluginsToCopyE R fs deps = .ok P)
    (har : R "strapi-admin" = some ar)
    (h : createCacheDir R (some deps) dir fs = .ok fs') :
    FS.Wf fs' ∧
    (∀ q, (dir ++ [".cache"]).isPrefixOf q = false → FS.read fs' q = FS.read fs q) ∧
    (∀ rel, FS.read fs' (dir ++ [".cache"] ++ rel) =
      mergedContent R fs dir ar P rel) := by
  obtain ⟨P2, ar2, hP2, har2, hb1, hb2, hpl⟩ :=
    createCacheDir_ok_conditions wf hsep h
  have hPP : P2 = P := by
    rw [hP] at hP2
    exact (Except.ok.inj hP2).symm
  have harr : ar2 = ar := by
    rw [har] at har2
    exact (Option.some.inj har2).symm
  subst hPP
  subst harr
  obtain ⟨fs2, hok, wf2, hout2, hin2⟩ :=
    createCacheDir_run wf hsep hP har hb1 hb2 hpl
  have heq : fs2 = fs' := Except.ok.inj (hok.symm.trans h)
  subst heq
  exact ⟨wf2, hout2, hin2⟩

/-! ### Comparing the pipeline fold with the layer-precedence reading -/

/-- No plugin layer covers the manifest destination. -/
theorem pluginLayerContent_manifest (R : String → Option FPath) (g : FS)
    (p : String) :
    pluginLayerContent R g p ["admin", "src", "plugins.js"] = none := rfl

/-- No extension layer covers the manifest destination. -/
theorem extLayerContent_manifest (dir : FPath) (g : FS) (p : String) :
    extLayerContent dir g p ["admin", "src", "plugins.js"] = none := rfl

/-- An extension layer whose override directory is absent covers nothing. -/
theorem extLayerContent_none_of_no_src {dir : FPath} {fs : FS} {p : String}
    (hpc : FS.existsPath fs
      (dir ++ ["extensions", stripPluginPrefix p, "admin"]) = false)
    (rel : FPath) : extLayerContent dir fs p rel = none := by
  unfold extLayerContent
  cases hg : (["plugins", "strapi-plugin-" ++ stripPluginPrefix p, "admin"]
      : FPath).isPrefixOf rel with
  | false => simp [hg]
  | true =>
    have hshape : dir ++ ["extensions", stripPluginPrefix p] ++ rel.drop 2 =
        (dir ++ ["extensions", stripPluginPrefix p, "admin"]) ++
          rel.drop (["plugins", "strapi-plugin-" ++ stripPluginPrefix p, "admin"]
            : FPath).length := by
      rw [List.append_assoc, List.append_assoc]
      conv_lhs => rw [← append_drop_restores hg]
      rfl
    simp only [hg, if_true, ite_true]
    rw [hshape]
    exact FS.read_none_of_not_existsPath hpc _

theorem countContaining_append (ls1 ls2 : List (FPath → Option String))
    (rel : FPath) :
    countContaining (ls1 ++ ls2) rel =
      countContaining ls1 rel + countContaining ls2 rel := by
  unfold countContaining
  rw [List.filter_append, List.length_append]

theorem countContaining_map_zero {α : Type} (f : α → FPath → Option String)
    (l : List α) (rel : FPath) (h : ∀ x ∈ l, f x rel = none) :
    countContaining (l.map f) rel = 0 := by
  unfold countContaining
  rw [List.length_eq_zero, List.filter_eq_nil_iff]
  intro L hL
  rcases List.mem_map.mp hL with ⟨x, hx, hfx⟩
  rw [← hfx, h x hx]
  simp

theorem countContaining_singleton (L : FPath → Option String) (rel : FPath) :
    countContaining [L] rel = if (L rel).isSome then 1 else 0 := by
  unfold countContaining
  cases h : (L rel).isSome <;> simp [List.filter, h]

/-- Folding picks of entries that are all none leaves the accumulator. -/
theorem foldl_pick_all_none {α : Type} {F : α → Option String} :
    ∀ (l : List α), (∀ x ∈ l, F x = none) →
    ∀ a : Option String, l.foldl (fun acc x => pick (F x) acc) a = a := by
  intro l
  induction l with
  | nil => intro _ a; rfl
  | cons x rest ih =>
    intro h a
    rw [List.foldl_cons, h x (List.mem_cons_self x rest)]
    exact ih (fun y hy => h y (List.mem_cons_of_mem x hy)) a

theorem foldl_pick_layers_none :
    ∀ (ls : List (FPath → Option String)) (rel : FPath),
    (∀ L ∈ ls, L rel = none) →
    ∀ a : Option String, ls.foldl (fun acc L => pick (L rel) acc) a = a := by
  intro ls rel
  induction ls with
  | nil => intro _ a; rfl
  | cons L rest ih =>
    intro h a
    rw [List.foldl_cons, h L (List.mem_cons_self L rest)]
    exact ih (fun x hx => h x (List.mem_cons_of_mem L hx)) a

theorem countZero_layers_none {ls : List (FPath → Option String)} {rel : FPath}
    (h : countContaining ls rel = 0) : ∀ L ∈ ls, L rel = none := by
  unfold countContaining at h
  rw [List.length_eq_zero, List.filter_eq_nil_iff] at h
  intro L hL
  exact Option.not_isSome_iff_eq_none.mp (h L hL)

/-- Away from the manifest destination, the pipeline fold yields exactly the
highest containing layer's content. -/
theorem mergedContent_eq_highest {R : String → Option FPath} {fs : FS}
    {dir ar : FPath} {P : List String} (rel : FPath)
    (hm : rel ≠ ["admin", "src", "plugins.js"]) :
    mergedContent R fs dir ar P rel =
      highestContent (layerList R fs dir ar P) rel := by
  simp only [mergedContent, layerList, highestContent]
  rw [if_neg hm]
  by_cases hpe : FS.existsPath fs (dir ++ ["admin"]) = true
  · rw [if_pos hpe]
    simp only [List.foldl_append, List.foldl_cons, List.foldl_nil, List.foldl_map,
      pick_none_right]
    exact (foldl_pick_filter P
      (fun p _ hpc => extLayerContent_none_of_no_src hpc rel) _).symm
  · rw [if_neg hpe]
    have hpe2 : FS.existsPath fs (dir ++ ["admin"]) = false := Bool.eq_false_iff.mpr hpe
    have hprojnone : projLayerContent dir fs rel = none := by
      unfold projLayerContent
      cases hAd : (["admin"] : FPath).isPrefixOf rel with
      | false => simp [hAd]
      | true =>
        have hsplit : dir ++ rel = (dir ++ ["admin"]) ++ rel.drop 1 := by
          rw [List.append_assoc]
          conv_lhs => rw [singleton_prefix_to_cons hAd]
          rfl
        simp only [hAd, if_true, ite_true]
        rw [hsplit]
        exact FS.read_none_of_not_existsPath hpe2 _
    rw [hprojnone]
    simp only [List.foldl_append, List.foldl_cons, List.foldl_nil, List.foldl_map,
      pick_none_right, pick_none]
    exact (foldl_pick_filter P
      (fun p _ hpc => extLayerContent_none_of_no_src hpc rel) _).symm

/-- At the manifest destination the pipeline leaves the project override
when present, else the freshly generated text. -/
theorem mergedContent_manifest (R : String → Option FPath) (fs : FS)
    (dir ar : FPath) (P : List String) :
    mergedContent R fs dir ar P ["admin", "src", "plugins.js"] =
      pick (projLayerContent dir fs ["admin", "src", "plugins.js"])
        (some (pluginsJsContent P)) := by
  simp only [mergedContent, if_pos rfl]
  exact foldl_pick_all_none P (fun p _ => extLayerContent_manifest dir fs p) _

/-- Two layers containing the manifest destination force the base layer,
the project gate and the project layer. -/
theorem count_manifest_split {R : String → Option FPath} {fs : FS}
    {dir ar : FPath} {P : List String}
    (h2 : 2 ≤ countContaining (layerList R fs dir ar P)
      ["admin", "src", "plugins.js"]) :
    (baseLayerContent ar fs ["admin", "src", "plugins.js"]).isSome = true ∧
    FS.existsPath fs (dir ++ ["admin"]) = true ∧
    (projLayerContent dir fs ["admin", "src", "plugins.js"]).isSome = true := by
  unfold layerList at h2
  rw [countContaining_append, countContaining_append, countContaining_append,
    countContaining_map_zero (pluginLayerContent R fs) P _
      (fun p _ => pluginLayerContent_manifest R fs p),
    countContaining_map_zero (extLayerContent dir fs) _ _
      (fun p _ => extLayerContent_manifest dir fs p),
    countContaining_singleton] at h2
  by_cases hpe : FS.existsPath fs (dir ++ ["admin"]) = true
  · rw [if_pos hpe, countContaining_singleton] at h2
    refine ⟨?_, hpe, ?_⟩
    · cases hb : (baseLayerContent ar fs ["admin", "src", "plugins.js"]).isSome with
      | true => rfl
      | false =>
        rw [hb] at h2
        cases hp : (projLayerContent dir fs ["admin", "src", "plugins.js"]).isSome with
        | true =>
          rw [hp] at h2
          simp at h2
        | false =>
          rw [hp] at h2
          simp at h2
    · cases hp : (projLayerContent dir fs ["admin", "src", "plugins.js"]).isSome with
      | true => rfl
      | false =>
        rw [hp] at h2
        cases hb : (baseLayerContent ar fs ["admin", "src", "plugins.js"]).isSome with
        | true =>
          rw [hb] at h2
          simp at h2
        | false =>
          rw [hb] at h2
          simp at h2
  · exfalso
    rw [if_neg hpe] at h2
    have hz : countContaining ([] : List (FPath → Option String))
        ["admin", "src", "plugins.js"] = 0 := rfl
    rw [hz] at h2
    cases hb : (baseLayerContent ar fs ["admin", "src", "plugins.js"]).isSome with
    | true =>
      rw [hb] at h2
      simp at h2
    | false =>
      rw [hb] at h2
      simp at h2

/-- With the project layer present, it is the highest layer containing the
manifest destination. -/
theorem highestContent_manifest {R : String → Option FPath} {fs : FS}
    {dir ar : FPath} {P : List String}
    (hpe : FS.existsPath fs (dir ++ ["admin"]) = true)
    (hp : (projLayerContent dir fs ["admin", "src", "plugins.js"]).isSome = true) :
    highestContent (layerList R fs dir ar P) ["admin", "src", "plugins.js"] =
      projLayerContent dir fs ["admin", "src", "plugins.js"] := by
  unfold highestContent layerList
  rw [if_pos hpe]
  simp only [List.foldl_append, List.foldl_cons, List.foldl_nil, List.foldl_map]
  rw [foldl_pick_all_none (P.filter _)
      (fun p _ => extLayerContent_manifest dir fs p),
    foldl_pick_all_none P (fun p _ => pluginLayerContent_manifest R fs p),
    pick_eq_of_isSome hp]

/-- C1 (amended): after a successful materialization on a well-formed tree
with package roots disjoint from the cache, every relative path present in
at least two active layers holds exactly the highest-precedence containing
layer's content (base < plugins in declaration order < project override <
extension overrides); every path present in no active layer is absent from
the merged tree, with the single exception of the manifest destination
admin/src/plugins.js, which holds freshly generated manifest text even when
no layer ships it. -/
theorem C1_layer_precedence {R : String → Option FPath} {deps : List String}
    {dir : FPath} {fs fs' : FS} {P : List String} {ar : FPath}
    (wf : FS.Wf fs) (hsep : SepEnv R (dir ++ [".cache"]))
    (hP : pluginsToCopyE R fs deps = .ok P)
    (har : R "strapi-admin" = some ar)
    (h : createCacheDir R (some deps) dir fs = .ok fs') :
    ∀ rel,
      (2 ≤ countContaining (layerList R fs dir ar P) rel →
        FS.read fs' (dir ++ [".cache"] ++ rel) =
          highestContent (layerList R fs dir ar P) rel) ∧
      (countContaining (layerList R fs dir ar P) rel = 0 →
        rel ≠ ["admin", "src", "plugins.js"] →
        FS.read fs' (dir ++ [".cache"] ++ rel) = none) ∧
      (countContaining (layerList R fs dir ar P) rel = 0 →
        rel = ["admin", "src", "plugins.js"] →
        FS.read fs' (dir ++ [".cache"] ++ rel) = some (pluginsJsContent P)) := by
  obtain ⟨-, -, hin⟩ := createCacheDir_spec wf hsep hP har h
  intro rel
  refine ⟨?_, ?_, ?_⟩
  · intro h2
    rw [hin rel]
    by_cases hm : rel = ["admin", "src", "plugins.js"]
    · subst hm
      obtain ⟨-, hpe, hp⟩ := count_manifest_split h2
      rw [mergedContent_manifest, pick_eq_of_isSome hp,
        highestContent_manifest hpe hp]
    · exact mergedContent_eq_highest rel hm
  · intro h0 hm
    rw [hin rel, mergedContent_eq_highest rel hm]
    unfold highestContent
    exact foldl_pick_layers_none _ rel (countZero_layers_none h0) none
  · intro h0 hm
    subst hm
    rw [hin _, mergedContent_manifest]
    have hprojnone : projLayerContent dir fs ["admin", "src", "plugins.js"] =
        none := by
      by_cases hpe : FS.existsPath fs (dir ++ ["admin"]) = true
      · apply countZero_layers_none h0
        unfold layerList
        rw [if_pos hpe]
        simp
      · have hpe2 : FS.existsPath fs (dir ++ ["admin"]) = false :=
          Bool.eq_false_iff.mpr hpe
        unfold projLayerContent
        have hsplit : dir ++ ["admin", "src", "plugins.js"] =
            (dir ++ ["admin"]) ++ ["src", "plugins.js"] := by simp
        rw [if_pos (by decide)]
        rw [hsplit]
        exact FS.read_none_of_not_existsPath hpe2 _
    rw [hprojnone]
    rfl

/-- The example resolver's package roots are disjoint from the example
cache directory. -/
theorem exR_sep : SepEnv exR (exDir ++ [".cache"]) := by
  intro name r h
  unfold exR at h
  by_cases h1 : name = "strapi-admin"
  · rw [if_pos h1] at h
    injection h with h
    subst h
    decide
  · rw [if_neg h1] at h
    by_cases h2 : name = "strapi-plugin-users"
    · rw [if_pos h2] at h
      injection h with h
      subst h
      decide
    · rw [if_neg h2] at h
      by_cases h3 : name = "strapi-plugin-upload"
      · rw [if_pos h3] at h
        injection h with h
        subst h
        decide
      · rw [if_neg h3] at h
        exact Option.noConfusion h

set_option maxRecDepth 60000 in
/-- C1 counterexample: in a base-only installation with no plugins and no
overrides, no active layer contains admin/src/plugins.js (count zero), yet
the merged tree holds the freshly generated manifest there — refuting the
claim's "a path present in no active layer is absent from the merged
tree". -/
theorem C1_counterexample :
    createCacheDir exR0 (some []) exDir exFSbase = .ok exMaterializedBase ∧
    countContaining (layerList exR0 exFSbase exDir ["nm", "strapi-admin"] [])
      ["admin", "src", "plugins.js"] = 0 ∧
    FS.read exMaterializedBase
      (exDir ++ [".cache"] ++ ["admin", "src", "plugins.js"]) =
      some (pluginsJsContent []) :=
  ⟨rfl, by decide, by decide⟩

set_option maxRecDepth 200000 in
/-- C1 witness: in the example project, admin/src/x.js lives in two layers
(base and project override), and the materialized tree holds exactly the
highest layer's content there. -/
theorem C1_witness :
    (FS.Wf exFS ∧
     pluginsToCopyE exR exFS exDeps = .ok exDeps ∧
     exR "strapi-admin" = some ["nm", "strapi-admin"] ∧
     createCacheDir exR (some exDeps) exDir exFS = .ok exMaterialized ∧
     2 ≤ countContaining (layerList exR exFS exDir ["nm", "strapi-admin"] exDeps)
       ["admin", "src", "x.js"]) ∧
    FS.read exMaterialized (exDir ++ [".cache"] ++ ["admin", "src", "x.js"]) =
      highestContent (layerList exR exFS exDir ["nm", "strapi-admin"] exDeps)
        ["admin", "src", "x.js"] :=
  ⟨⟨by decide, by decide, rfl, rfl, by decide⟩,
    (@C1_layer_precedence exR exDeps exDir exFS exMaterialized exDeps
      ["nm", "strapi-admin"] (by decide) exR_sep (by decide) rfl rfl
      ["admin", "src", "x.js"]).1 (by decide)⟩

/-- C3: on a well-formed tree whose resolved package roots are disjoint
from the cache directory, a second materialization right after a successful
one succeeds and produces a byte-identical tree: every path of the second
result reads exactly as in the first (the fixed project state — declared
dependencies, layer contents, resolver — is unchanged because the first run
only rewrites the cache subtree, which no layer reads from). -/
theorem C3_materialize_idempotent {R : String → Option FPath}
    {deps : List String} {dir : FPath} {fs fs' : FS}
    (wf : FS.Wf fs) (hsep : SepEnv R (dir ++ [".cache"]))
    (h : createCacheDir R (some deps) dir fs = .ok fs') :
    ∃ fs'', createCacheDir R (some deps) dir fs' = .ok fs'' ∧
      ∀ q, FS.read fs'' q = FS.read fs' q := by
  obtain ⟨P, ar, hP, har, hb1, hb2, hpl⟩ := createCacheDir_ok_conditions wf hsep h
  obtain ⟨wf1, hout1, hin1⟩ := createCacheDir_spec wf hsep hP har h
  have hd_ar : PathDisj ar (dir ++ [".cache"]) := hsep "strapi-admin" ar har
  have hP2 : pluginsToCopyE R fs' deps = .ok P := by
    rw [pluginsToCopyE_congr hsep hout1 deps]
    exact hP
  have hb1t : FS.existsPath fs' (ar ++ ["admin"]) = true := by
    rw [existsPath_eq_of_outside (pathDisj_extend_right hd_ar ["admin"]) hout1]
    exact hb1
  have hb2t : FS.existsPath fs' (ar ++ ["config", "layout.js"]) = true := by
    rw [existsPath_eq_of_outside
      (pathDisj_extend_right hd_ar ["config", "layout.js"]) hout1]
    exact hb2
  have hplt : ∀ p ∈ P, ∃ root, R p = some root ∧
      FS.existsPath fs' (root ++ ["admin"]) = true ∧
      FS.existsPath fs' (root ++ ["package.json"]) = true := by
    intro p hp
    obtain ⟨root, hroot, ha, hk⟩ := hpl p hp
    have hdp := hsep p root hroot
    refine ⟨root, hroot, ?_, ?_⟩
    · rw [existsPath_eq_of_outside (pathDisj_extend_right hdp ["admin"]) hout1]
      exact ha
    · rw [existsPath_eq_of_outside (pathDisj_extend_right hdp ["package.json"]) hout1]
      exact hk
  obtain ⟨fs'', hok, wf2, hout2, hin2⟩ :=
    createCacheDir_run wf1 hsep hP2 har hb1t hb2t hplt
  refine ⟨fs'', hok, ?_⟩
  intro q
  by_cases hq : (dir ++ [".cache"]).isPrefixOf q = true
  · have hqe : (dir ++ [".cache"]) ++
        q.drop (dir ++ [".cache"] : FPath).length = q :=
      append_drop_restores hq
    rw [← hqe, hin2 _, hin1 _]
    exact mergedContent_congr hsep hd_ar.symm hout1 _
  · have hq2 : (dir ++ [".cache"]).isPrefixOf q = false := Bool.eq_false_iff.mpr hq
    rw [hout2 q hq2]

set_option maxRecDepth 200000 in
/-- C3 witness: rematerializing the already-materialized example project
succeeds and leaves every path byte-identical. -/
theorem C3_witness :
    (FS.Wf exFS ∧ SepEnv exR (exDir ++ [".cache"])) ∧
    (∃ fs'', createCacheDir exR (some exDeps) exDir exMaterialized = .ok fs'' ∧
      ∀ q, FS.read fs'' q = FS.read exMaterialized q) :=
  ⟨⟨by decide, exR_sep⟩,
    @C3_materialize_idempotent exR exDeps exDir exFS exMaterialized
      (by decide) exR_sep rfl⟩

end Strapi
